import Mathlib

/-!
# Basis-solve helpers of HiGHS (`check/TestBasisSolves.cpp`)

A shallow embedding of `GetBasisSolvesFormRHS` and `GetBasisSolvesCheckSolution`
together with the part of `HighsLp` they read.

Modelling conventions.
* For the claims stated in exact arithmetic `double` is modelled by exact rational
  arithmetic (`ℚ`), `fabs` by `abs`.
* For the sign of the residual the same code is embedded a second time over a
  record of arithmetic operations (`GetBasisSolvesCheckSolutionOf`), and read over
  IEEE-754 binary64 values (`Double`): finite values, the two infinities and NaN,
  every operation rounded on its own to nearest, ties to even, with overflow to
  infinity; the two zeros are not distinguished.
* `int` is modelled by `Int`; every signed operation that could overflow goes
  through `checkInt`, which yields `none` (undefined behaviour) outside the
  32-bit range.
* Vectors and raw buffers are lists; an access outside the list yields `none`.
* The buffers passed to one call do not alias.
* `printf` output is not part of the state.
-/

set_option autoImplicit false

namespace HiGHS

/-! ## Machine integers and memory -/

/-- Smallest value of the C++ type `int`. -/
def INT_MIN : Int := -2147483648

/-- Largest value of the C++ type `int`. -/
def INT_MAX : Int := 2147483647

/-- The integer is a value of the C++ type `int`. -/
def isInt (z : Int) : Prop := INT_MIN ≤ z ∧ z ≤ INT_MAX

instance (z : Int) : Decidable (isInt z) := by
  unfold isInt; infer_instance

/-- Result of a signed `int` operation whose exact value is `z`:
`none` when the value is not representable (signed overflow). -/
def checkInt (z : Int) : Option Int :=
  if INT_MIN ≤ z ∧ z ≤ INT_MAX then some z else none

/-- Read `xs[i]`; `none` when `i` is outside the buffer. -/
def readAt {α : Type} (xs : List α) (i : Int) : Option α :=
  if 0 ≤ i then xs[i.toNat]? else none

/-- Store `xs[i] = v`; `none` when `i` is outside the buffer. -/
def writeAt {α : Type} (xs : List α) (i : Int) (v : α) : Option (List α) :=
  if 0 ≤ i ∧ i.toNat < xs.length then some (xs.set i.toNat v) else none

/-- Compound assignment `xs[i] += v`. -/
def addAt (xs : List ℚ) (i : Int) (v : ℚ) : Option (List ℚ) :=
  (readAt xs i).bind fun old => writeAt xs i (old + v)

/-- The call `vec.assign(n, v)` on a `std::vector` with an `int` count:
a negative count converts to a huge `size_type` and the call throws. -/
def vectorAssign (n : Int) (v : ℚ) : Option (List ℚ) :=
  if 0 ≤ n then some (List.replicate n.toNat v) else none

/-! ## The LP data read by the helpers (`lp_data/HighsLp.h`) -/

/-- The model data of `class HighsLp` used by the basis-solve helpers:
the dimensions and the column-wise constraint matrix. -/
structure HighsLp where
  numCol_ : Int := 0
  numRow_ : Int := 0
  Astart_ : List Int := []
  Aindex_ : List Int := []
  Avalue_ : List ℚ := []

/-! ## Loops -/

/-- Run `body i` for `m` consecutive values of the counter starting at `i`. -/
def forLoop {σ : Type} (body : Int → σ → Option σ) : Nat → Int → σ → Option σ
  | 0, _, s => some s
  | m + 1, i, s => (body i s).bind (forLoop body m (i + 1))

/-- The loop `for (int i = lo; i < hi; i++) body`, with `hi` loop-invariant. -/
def forRange {σ : Type} (lo hi : Int) (body : Int → σ → Option σ) (s : σ) : Option σ :=
  forLoop body (hi - lo).toNat lo s

/-- The loop `for (int el = lp.Astart_[col]; el < lp.Astart_[col+1]; el++) body`. -/
def columnLoop {σ : Type} (lp : HighsLp) (col : Int) (body : Int → σ → Option σ) (s : σ) :
    Option σ :=
  (readAt lp.Astart_ col).bind fun first =>
  (checkInt (col + 1)).bind fun next =>
  (readAt lp.Astart_ next).bind fun last =>
  forRange first last body s

/-! ## Decoding of a basic variable -/

/-- The statement `int row = -(1+var);`. -/
def logicalRow (var : Int) : Option Int :=
  (checkInt (1 + var)).bind fun t => checkInt (-t)

/-- A decoded basic variable. -/
inductive BasicVariable where
  | Structural (col : Int)
  | Logical (row : Int)
  deriving DecidableEq, Repr

/-- The branch `if (var < 0) { int row = -(1+var); ... } else { int col = var; ... }`
taken by every loop over the basic variables. -/
def decode (var : Int) : Option BasicVariable :=
  if var < 0 then (logicalRow var).map BasicVariable.Logical
  else some (BasicVariable.Structural var)

/-- The index carried by a decoded basic variable. -/
def BasicVariable.index : BasicVariable → Int
  | .Structural c => c
  | .Logical r => r

/-- Re-encoding of a decoded basic variable as the specification words it:
`c` for `Structural c` and `-(1+r)` for `Logical r`, in exact integers. -/
def encode : BasicVariable → Int
  | .Structural c => c
  | .Logical r => -(1 + r)

/-! ## `GetBasisSolvesFormRHS` -/

/-- Body of the column loop of the forward direction:
`int row = lp.Aindex_[el]; y[row] += lp.Avalue_[el]*solution[k];`. -/
def scatterEntry (lp : HighsLp) (solution : List ℚ) (k : Int) (el : Int) (y : List ℚ) :
    Option (List ℚ) :=
  (readAt lp.Aindex_ el).bind fun row =>
  (readAt lp.Avalue_ el).bind fun a =>
  (readAt solution k).bind fun xk =>
  addAt y row (a * xk)

/-- Body of the slot loop of the forward direction (the same text in
`GetBasisSolvesFormRHS` on `rhs` and in `GetBasisSolvesCheckSolution` on
`basis_matrix_times_solution`). -/
def forwardSlot (lp : HighsLp) (basic_variables : List Int) (solution : List ℚ)
    (k : Int) (y : List ℚ) : Option (List ℚ) :=
  (readAt basic_variables k).bind fun var =>
  if var < 0 then
    (logicalRow var).bind fun row =>
    (readAt solution k).bind fun xk =>
    addAt y row xk
  else
    columnLoop lp var (scatterEntry lp solution k) y

/-- Body of the column loop of the transpose direction of `GetBasisSolvesFormRHS`:
`int row = lp.Aindex_[el]; rhs[k] += lp.Avalue_[el]*solution[row];`. -/
def gatherEntry (lp : HighsLp) (solution : List ℚ) (k : Int) (el : Int) (rhs : List ℚ) :
    Option (List ℚ) :=
  (readAt lp.Aindex_ el).bind fun row =>
  (readAt lp.Avalue_ el).bind fun a =>
  (readAt solution row).bind fun x =>
  addAt rhs k (a * x)

/-- Body of the slot loop of the transpose direction of `GetBasisSolvesFormRHS`. -/
def transposeSlot (lp : HighsLp) (basic_variables : List Int) (solution : List ℚ)
    (k : Int) (rhs : List ℚ) : Option (List ℚ) :=
  (writeAt rhs k 0).bind fun rhs =>
  (readAt basic_variables k).bind fun var =>
  if var < 0 then
    (logicalRow var).bind fun row =>
    (readAt solution row).bind fun x =>
    writeAt rhs k x
  else
    columnLoop lp var (gatherEntry lp solution k) rhs

/-- The function `GetBasisSolvesFormRHS(lp, basic_variables, solution, rhs, transpose)`:
the result is the content of the buffer `rhs` after the call. -/
def GetBasisSolvesFormRHS (lp : HighsLp) (basic_variables : List Int) (solution : List ℚ)
    (rhs : List ℚ) (transpose : Bool) : Option (List ℚ) :=
  if transpose then
    forRange 0 lp.numRow_ (transposeSlot lp basic_variables solution) rhs
  else
    (forRange 0 lp.numRow_ (fun k rhs => writeAt rhs k 0) rhs).bind fun rhs =>
    forRange 0 lp.numRow_ (forwardSlot lp basic_variables solution) rhs

/-! ## `GetBasisSolvesCheckSolution` -/

/-- Body of the column loop of the transpose direction of
`GetBasisSolvesCheckSolution`:
`int row = lp.Aindex_[el]; residual += lp.Avalue_[el]*solution[row];`. -/
def dotEntry (lp : HighsLp) (solution : List ℚ) (el : Int) (residual : ℚ) : Option ℚ :=
  (readAt lp.Aindex_ el).bind fun row =>
  (readAt lp.Avalue_ el).bind fun a =>
  (readAt solution row).bind fun x =>
  some (residual + a * x)

/-- Body of the slot loop of the transpose direction of
`GetBasisSolvesCheckSolution`; the state is `residual_norm`. -/
def transposeResidual (lp : HighsLp) (basic_variables : List Int) (rhs solution : List ℚ)
    (k : Int) (residual_norm : ℚ) : Option ℚ :=
  (readAt basic_variables k).bind fun var =>
  if var < 0 then
    (logicalRow var).bind fun row =>
    (readAt rhs k).bind fun b =>
    (readAt solution row).bind fun x =>
    some (residual_norm + abs (b - x))
  else
    (columnLoop lp var (dotEntry lp solution) 0).bind fun residual =>
    (readAt rhs k).bind fun b =>
    some (residual_norm + abs (b - residual))

/-- Body of the final loop of the forward direction of
`GetBasisSolvesCheckSolution`:
`residual = fabs(rhs[k] - basis_matrix_times_solution[k]); residual_norm += residual;`. -/
def forwardResidual (rhs basis_matrix_times_solution : List ℚ) (k : Int)
    (residual_norm : ℚ) : Option ℚ :=
  (readAt rhs k).bind fun b =>
  (readAt basis_matrix_times_solution k).bind fun y =>
  some (residual_norm + abs (b - y))

/-- The function `GetBasisSolvesCheckSolution(lp, basic_variables, rhs, solution, transpose)`:
the result is the returned `residual_norm`. -/
def GetBasisSolvesCheckSolution (lp : HighsLp) (basic_variables : List Int)
    (rhs solution : List ℚ) (transpose : Bool) : Option ℚ :=
  if transpose then
    forRange 0 lp.numRow_ (transposeResidual lp basic_variables rhs solution) 0
  else
    (vectorAssign lp.numRow_ 0).bind fun basis_matrix_times_solution =>
    (forRange 0 lp.numRow_ (forwardSlot lp basic_variables solution)
      basis_matrix_times_solution).bind fun basis_matrix_times_solution =>
    forRange 0 lp.numRow_ (forwardResidual rhs basis_matrix_times_solution) 0

/-! ## The call of `GetBasisSolvesFormRHS` as a transformer of the memory -/

/-- The objects a call of `GetBasisSolvesFormRHS` reaches through its arguments;
they are distinct objects that do not overlap. -/
structure FormRHSMemory where
  lp : HighsLp
  basic_variables : List Int
  solution : List ℚ
  rhs : List ℚ

/-- The call `GetBasisSolvesFormRHS(lp, basic_variables, solution, rhs, transpose)` as
a transformer of the memory it reaches: every store of the function is to an
element of `rhs` (lines 87, 91, 96, 101, 106 and 111); `lp`, `basic_variables`
and `solution` are only read. -/
def callGetBasisSolvesFormRHS (m : FormRHSMemory) (transpose : Bool) : Option FormRHSMemory :=
  (GetBasisSolvesFormRHS m.lp m.basic_variables m.solution m.rhs transpose).map
    fun rhs => { m with rhs := rhs }

/-- Two buffers of the same length hold the same values in their first `b`
entries. -/
def AgreeBelow (b : Nat) (s1 s2 : List ℚ) : Prop :=
  s1.length = s2.length ∧ ∀ i, i < b → s1.getD i 0 = s2.getD i 0

/-! ## The dense column built by the test -/

/-- Body of the column loop of the test (line 381):
`rhs[lp.Aindex_[el]] = lp.Avalue_[el];`. -/
def storeEntry (lp : HighsLp) (el : Int) (rhs : List ℚ) : Option (List ℚ) :=
  (readAt lp.Aindex_ el).bind fun row =>
  (readAt lp.Avalue_ el).bind fun a =>
  writeAt rhs row a

/-- Column `check_col` expanded to dense row space as the test builds it (lines
380-381): `for (row < numRow) rhs[row]=0;` then
`for (el = Astart_[check_col]; el < Astart_[check_col+1]; el++)
rhs[Aindex_[el]] = Avalue_[el];`. -/
def expandColumn (lp : HighsLp) (check_col : Int) (rhs : List ℚ) : Option (List ℚ) :=
  (forRange 0 lp.numRow_ (fun row rhs => writeAt rhs row 0) rhs).bind fun rhs =>
  columnLoop lp check_col (storeEntry lp) rhs

/-- A 1-row, 1-column LP whose only column lists row 0 twice, with the values 1
and 2. -/
def repeatedRowLp : HighsLp :=
  { numCol_ := 1, numRow_ := 1, Astart_ := [0, 2], Aindex_ := [0, 0], Avalue_ := [1, 2] }

/-- The 2x2 identity constraint matrix of the concrete scenarios. -/
def identityLp : HighsLp :=
  { numCol_ := 2, numRow_ := 2, Astart_ := [0, 1, 2], Aindex_ := [0, 1], Avalue_ := [1, 1] }

/-- A 2-row, 3-column LP used to evaluate the helpers: column 0 holds
`(row 0, 2)` and `(row 1, 3)`, column 1 holds `(row 1, 4)`, column 2 is empty. -/
def exampleLp : HighsLp :=
  { numCol_ := 3, numRow_ := 2, Astart_ := [0, 2, 3, 3], Aindex_ := [0, 1, 1],
    Avalue_ := [2, 3, 4] }

/-- A 2-row, 1-column LP whose column lists row 0 twice: it holds `(row 0, 1)`,
`(row 0, 2)` and `(row 1, 5)`. -/
def repeatedEntryLp : HighsLp :=
  { numCol_ := 1, numRow_ := 2, Astart_ := [0, 3], Aindex_ := [0, 0, 1],
    Avalue_ := [1, 2, 5] }

/-! ## Data-model invariants -/

/-- The data-model invariants of the column-wise matrix of an LP: the
dimensions are values of type `int`, `Astart_` has `numCol_+1` non-decreasing
entries that start at or after 0 and end within `Aindex_` and `Avalue_`, and
every `Aindex_` entry is a row index. -/
structure WellFormed (lp : HighsLp) : Prop where
  numRow_int : isInt lp.numRow_
  numCol_int : isInt lp.numCol_
  Astart_length : (lp.Astart_.length : Int) = lp.numCol_ + 1
  Astart_sorted : lp.Astart_.Sorted (· ≤ ·)
  Astart_first : ∀ a ∈ lp.Astart_.head?, 0 ≤ a
  Astart_last : ∀ a ∈ lp.Astart_.getLast?,
    a ≤ (lp.Aindex_.length : Int) ∧ a ≤ (lp.Avalue_.length : Int)
  Aindex_range : ∀ r ∈ lp.Aindex_, 0 ≤ r ∧ r < lp.numRow_

/-- A decoded basic variable names a column or a row of the LP. -/
def BasicVariable.InRange (lp : HighsLp) : BasicVariable → Prop
  | .Structural c => 0 ≤ c ∧ c < lp.numCol_
  | .Logical r => 0 ≤ r ∧ r < lp.numRow_

/-- Every raw entry of the assignment decodes, and decodes in range. -/
def DecodesInRange (lp : HighsLp) (basic_variables : List Int) : Prop :=
  ∀ v ∈ basic_variables, ∃ b, decode v = some b ∧ b.InRange lp

/-- The basis matrix is the identity: every slot `k` either decodes to
`Logical k` or decodes to `Structural c` for a column `c` of the LP that holds the
single entry `(row k, value 1)`. -/
def IdentityBasis (lp : HighsLp) (basic_variables : List Int) : Prop :=
  ∀ k : Nat, (k : Int) < lp.numRow_ →
    decode (basic_variables.getD k 0) = some (BasicVariable.Logical k) ∨
    ∃ c, decode (basic_variables.getD k 0) = some (BasicVariable.Structural c) ∧
      0 ≤ c ∧ c < lp.numCol_ ∧
      ∃ el : Nat, lp.Astart_.getD c.toNat 0 = (el : Int) ∧
        lp.Astart_.getD (c + 1).toNat 0 = (el : Int) + 1 ∧
        lp.Aindex_.getD el 0 = (k : Int) ∧ lp.Avalue_.getD el 0 = 1

/-! ## The images and the residual as the specification states them -/

/-- Entry `el` of the matrix arrays belongs to column `c`:
`Astart_[c] ≤ el < Astart_[c+1]`. -/
def isEntryOf (lp : HighsLp) (c : Int) (el : Nat) : Prop :=
  lp.Astart_.getD c.toNat 0 ≤ (el : Int) ∧ (el : Int) < lp.Astart_.getD (c + 1).toNat 0

instance (lp : HighsLp) (c : Int) (el : Nat) : Decidable (isEntryOf lp c el) := by
  unfold isEntryOf; infer_instance

/-- Row `i` of `B*x` as the specification states it: the sum of `x[k]` over the
slots `k` that decode to `Logical i`, plus the sum of `Avalue_[el]*x[k]` over the
slots `k` that decode to `Structural c` and the entries `el` of column `c` with
`Aindex_[el] = i`. -/
def forwardImage (lp : HighsLp) (basic_variables : List Int) (x : List ℚ) (i : Nat) : ℚ :=
  (∑ k ∈ Finset.range lp.numRow_.toNat,
      if decode (basic_variables.getD k 0) = some (BasicVariable.Logical i)
      then x.getD k 0 else 0) +
  ∑ k ∈ Finset.range lp.numRow_.toNat,
      match decode (basic_variables.getD k 0) with
      | some (BasicVariable.Structural c) =>
          ∑ el ∈ Finset.range lp.Aindex_.length,
            if isEntryOf lp c el ∧ lp.Aindex_.getD el 0 = (i : Int)
            then lp.Avalue_.getD el 0 * x.getD k 0 else 0
      | _ => 0

/-- Slot `k` of `B^T*x` as the specification states it: `x[r]` when slot `k`
decodes to `Logical r`, and the sum of `Avalue_[el]*x[Aindex_[el]]` over the
entries `el` of column `c` when it decodes to `Structural c`. -/
def transposeImage (lp : HighsLp) (basic_variables : List Int) (x : List ℚ) (k : Nat) : ℚ :=
  match decode (basic_variables.getD k 0) with
  | some (BasicVariable.Logical r) => x.getD r.toNat 0
  | some (BasicVariable.Structural c) =>
      ∑ el ∈ Finset.range lp.Aindex_.length,
        if isEntryOf lp c el
        then lp.Avalue_.getD el 0 * x.getD (lp.Aindex_.getD el 0).toNat 0 else 0
  | none => 0

/-- Entry `(i, k)` of the basis matrix times `x[k]`: what slot `k` adds to row `i`
of the forward image. -/
def slotContribution (lp : HighsLp) (basic_variables : List Int) (x : List ℚ)
    (k i : Nat) : ℚ :=
  match decode (basic_variables.getD k 0) with
  | some (BasicVariable.Logical r) => if r = (i : Int) then x.getD k 0 else 0
  | some (BasicVariable.Structural c) =>
      ∑ el ∈ Finset.range lp.Aindex_.length,
        if isEntryOf lp c el ∧ lp.Aindex_.getD el 0 = (i : Int)
        then lp.Avalue_.getD el 0 * x.getD k 0 else 0
  | none => 0

/-- The L1 distance `sum over k < n of |rhs[k] - y[k]|`. -/
def l1Distance (n : Nat) (rhs y : List ℚ) : ℚ :=
  ∑ k ∈ Finset.range n, abs (rhs.getD k 0 - y.getD k 0)

/-! ## The solver object and its state gating -/

/-- The return status of the solver interface, with the three values the test
compares against. -/
inductive HighsStatus where
  | OK
  | Warning
  | Error
  deriving DecidableEq, Repr

/-- Modelled from the spec: the operational state of the solver object, whose
class `Highs` is not among the sources. A fresh object is `Unloaded`, populating
the model store moves it to `Loaded`, a successful solve moves it to `Solved`. -/
inductive OperationalState where
  | Unloaded
  | Loaded
  | Solved
  deriving DecidableEq, Repr

/-- Modelled from the spec: the external factorization collaborator of the class
`Highs`, which applies the inverse of the basis matrix or of its transpose to a
vector, or reports that it cannot (`none`). -/
structure Factorization where
  ftran : List ℚ → Option (List ℚ)
  btran : List ℚ → Option (List ℚ)

/-- Modelled from the spec: the solver object of the class `Highs` (not among the
sources): its operational state, the model store, the basic-variable assignment
and the factorization established by a successful solve. -/
structure Highs where
  state : OperationalState
  lp : HighsLp
  basic_variables : List Int
  factor : Factorization

/-- Modelled from the spec: the freshly constructed object `Highs highs;`, in
state `Unloaded` (the constructor is not among the sources). -/
def Highs.fresh : Highs :=
  { state := OperationalState.Unloaded, lp := {}, basic_variables := [],
    factor := { ftran := fun _ => none, btran := fun _ => none } }

/-- Modelled from the spec: `Highs::initializeFromFile` (not among the sources).
The file loader is external; `parsed` is what it produced. Success populates the
model store and moves the object to `Loaded`; failure leaves it untouched. -/
def Highs.initializeFromFile (h : Highs) (parsed : Option HighsLp) : HighsStatus × Highs :=
  match parsed with
  | some lp => (HighsStatus.OK, { h with state := OperationalState.Loaded, lp := lp })
  | none => (HighsStatus.Error, h)

/-- Modelled from the spec: `Highs::run` (not among the sources). The solving
method is external; `outcome` is the assignment and factorization it established,
or `none` when it failed. A successful solve of a loaded model moves the object to
`Solved`; a failed call leaves it untouched. -/
def Highs.run (h : Highs) (outcome : Option (List Int × Factorization)) :
    HighsStatus × Highs :=
  match h.state, outcome with
  | OperationalState.Unloaded, _ => (HighsStatus.Error, h)
  | _, none => (HighsStatus.Error, h)
  | _, some (basis, factor) =>
      (HighsStatus.OK,
        { h with state := OperationalState.Solved, basic_variables := basis, factor := factor })

/-- The unit vector `e_j` of length `n` of the specification. -/
def unitVec (n : Nat) (j : Int) : List ℚ :=
  (List.range n).map fun (i : Nat) => if (i : Int) = j then 1 else 0

/-- Modelled from the spec: column `col` of the constraint matrix expanded to dense
row space, one entry per row: the sum of the values the column lists for the row. -/
def denseColumn (lp : HighsLp) (col : Int) : List ℚ :=
  (List.range lp.numRow_.toNat).map fun (i : Nat) =>
    ∑ el ∈ Finset.range lp.Aindex_.length,
      if isEntryOf lp col el ∧ lp.Aindex_.getD el 0 = (i : Int) then lp.Avalue_.getD el 0 else 0

/-- Modelled from the spec: the shape of every query of the class `Highs` (not
among the sources): a state error unless the object is `Solved`, then an index
error when the index is invalid, then the answer of the collaborator. -/
def Highs.query (h : Highs) (indexValid : Bool) (answer : Option (List ℚ)) :
    HighsStatus × Option (List ℚ) :=
  match h.state with
  | OperationalState.Solved =>
      if indexValid then
        match answer with
        | some solution => (HighsStatus.OK, some solution)
        | none => (HighsStatus.Error, none)
      else (HighsStatus.Error, none)
  | _ => (HighsStatus.Error, none)

/-- Modelled from the spec: `Highs::getBasicVariables` (`list_basic_variables`),
the current assignment, or a state error unless the object is `Solved`. -/
def Highs.getBasicVariables (h : Highs) : HighsStatus × Option (List Int) :=
  match h.state with
  | OperationalState.Solved => (HighsStatus.OK, some h.basic_variables)
  | _ => (HighsStatus.Error, none)

/-- Modelled from the spec: `Highs::getBasisSolve` (`solve_basis`). -/
def Highs.getBasisSolve (h : Highs) (rhs : List ℚ) : HighsStatus × Option (List ℚ) :=
  h.query true (h.factor.ftran rhs)

/-- Modelled from the spec: `Highs::getBasisTransposeSolve` (`solve_basis_transpose`). -/
def Highs.getBasisTransposeSolve (h : Highs) (rhs : List ℚ) :
    HighsStatus × Option (List ℚ) :=
  h.query true (h.factor.btran rhs)

/-- Modelled from the spec: `Highs::getBasisInverseCol` (`basis_inverse_column`),
`solve_basis(e_col)` for `0 ≤ col < numRow`. -/
def Highs.getBasisInverseCol (h : Highs) (col : Int) : HighsStatus × Option (List ℚ) :=
  h.query (decide (0 ≤ col ∧ col < h.lp.numRow_))
    (h.factor.ftran (unitVec h.lp.numRow_.toNat col))

/-- Modelled from the spec: `Highs::getBasisInverseRow` (`basis_inverse_row`),
`solve_basis_transpose(e_row)` for `0 ≤ row < numRow`. -/
def Highs.getBasisInverseRow (h : Highs) (row : Int) : HighsStatus × Option (List ℚ) :=
  h.query (decide (0 ≤ row ∧ row < h.lp.numRow_))
    (h.factor.btran (unitVec h.lp.numRow_.toNat row))

/-- Modelled from the spec: `Highs::getReducedColumn` (`reduced_column`),
`solve_basis(A_col)` for `0 ≤ col < numCol`. -/
def Highs.getReducedColumn (h : Highs) (col : Int) : HighsStatus × Option (List ℚ) :=
  h.query (decide (0 ≤ col ∧ col < h.lp.numCol_))
    (h.factor.ftran (denseColumn h.lp col))

/-! ## IEEE-754 binary64 values -/

/-- A value of the C++ type `double` (IEEE-754 binary64): a finite value, given
by the rational it denotes, an infinity or a NaN. The two zeros are one value.
Every arithmetic result is rounded to binary64 by `Double.round`; the values
passed in are meant to be binary64 values. -/
inductive Double where
  | finite (q : ℚ)
  | posInf
  | negInf
  | nan
  deriving DecidableEq, Repr

/-- The power `2^e` for an integer exponent. -/
def pow2 (e : Int) : ℚ :=
  if 0 ≤ e then ((2 ^ e.toNat : Nat) : ℚ) else 1 / ((2 ^ (-e).toNat : Nat) : ℚ)

/-- Number of halvings that bring `n` below 2, with at most `fuel` of them. -/
def log2Aux : Nat → Nat → Nat
  | 0, _ => 0
  | fuel + 1, n => if 2 ≤ n then log2Aux fuel (n / 2) + 1 else 0

/-- Floor of the binary logarithm of a positive natural number. -/
def natLog2 (n : Nat) : Nat := log2Aux n n

/-- Floor of the binary logarithm of a positive rational: the `e` with
`2^e ≤ a < 2^(e+1)`. -/
def floorLog2 (a : ℚ) : Int :=
  let k : Int := (natLog2 a.num.toNat : Int) - (natLog2 a.den : Int)
  if pow2 k ≤ a then k else k - 1

/-- Nearest natural number to a non-negative rational, ties to the even one. -/
def roundHalfEven (x : ℚ) : Nat :=
  let f : Nat := (x.num / (x.den : Int)).toNat
  let frac : ℚ := x - (f : ℚ)
  if frac < 1 / 2 then f
  else if 1 / 2 < frac then f + 1
  else if f % 2 = 0 then f else f + 1

/-- Rounding of a positive magnitude to binary64: 53 significant bits for a
normal value, multiples of `2^(-1074)` below `2^(-1022)`; `none` when the rounded
magnitude reaches `2^1024` (overflow). -/
def roundMagnitude (a : ℚ) : Option ℚ :=
  let ulp : ℚ := pow2 (max (floorLog2 a) (-1022) - 52)
  let r : ℚ := (roundHalfEven (a / ulp) : ℚ) * ulp
  if pow2 1024 ≤ r then none else some r

/-- The `double` result of an operation whose exact value is `q`: rounding to
nearest, ties to even, overflow to the infinity of the sign of `q`. -/
def Double.round (q : ℚ) : Double :=
  if q = 0 then Double.finite 0
  else if 0 < q then
    match roundMagnitude q with
    | some r => Double.finite r
    | none => Double.posInf
  else
    match roundMagnitude (-q) with
    | some r => Double.finite (-r)
    | none => Double.negInf

/-- Unary minus of `double`. -/
def Double.neg : Double → Double
  | Double.finite q => Double.finite (-q)
  | Double.posInf => Double.negInf
  | Double.negInf => Double.posInf
  | Double.nan => Double.nan

/-- Addition of `double`: NaN propagates, `inf + -inf` is NaN, a finite sum is
rounded. -/
def Double.add : Double → Double → Double
  | Double.nan, _ => Double.nan
  | _, Double.nan => Double.nan
  | Double.posInf, Double.negInf => Double.nan
  | Double.negInf, Double.posInf => Double.nan
  | Double.posInf, _ => Double.posInf
  | _, Double.posInf => Double.posInf
  | Double.negInf, _ => Double.negInf
  | _, Double.negInf => Double.negInf
  | Double.finite x, Double.finite y => Double.round (x + y)

/-- Subtraction of `double`. -/
def Double.sub (a b : Double) : Double := Double.add a (Double.neg b)

/-- The product of an infinity, `+inf` when `positive` holds and `-inf` otherwise,
with the finite value `x`: NaN for `x = 0`, else the infinity of the product of
the signs. -/
def Double.infTimes (positive : Bool) (x : ℚ) : Double :=
  if x = 0 then Double.nan
  else if (0 < x) = (positive = true) then Double.posInf else Double.negInf

/-- Multiplication of `double`: NaN propagates, `0 * inf` is NaN, a finite
product is rounded. -/
def Double.mul : Double → Double → Double
  | Double.nan, _ => Double.nan
  | _, Double.nan => Double.nan
  | Double.finite x, Double.finite y => Double.round (x * y)
  | Double.finite x, Double.posInf => Double.infTimes true x
  | Double.finite x, Double.negInf => Double.infTimes false x
  | Double.posInf, Double.finite y => Double.infTimes true y
  | Double.negInf, Double.finite y => Double.infTimes false y
  | Double.posInf, Double.posInf => Double.posInf
  | Double.posInf, Double.negInf => Double.negInf
  | Double.negInf, Double.posInf => Double.negInf
  | Double.negInf, Double.negInf => Double.posInf

/-- The function `fabs`: exact on finite values, `+inf` on both infinities, NaN
on NaN. -/
def Double.fabs : Double → Double
  | Double.finite q => Double.finite (abs q)
  | Double.posInf => Double.posInf
  | Double.negInf => Double.posInf
  | Double.nan => Double.nan

/-- The comparison `a <= b` of `double`: false as soon as an operand is NaN. -/
def Double.le : Double → Double → Prop
  | Double.nan, _ => False
  | _, Double.nan => False
  | Double.negInf, _ => True
  | _, Double.posInf => True
  | Double.finite x, Double.finite y => x ≤ y
  | Double.posInf, _ => False
  | _, Double.negInf => False

instance (a b : Double) : Decidable (Double.le a b) := by
  cases a <;> cases b <;> simp only [Double.le] <;> infer_instance

/-- The value is not negative: it is NaN or `0 <= d` holds. -/
def Double.NonNegOrNaN (d : Double) : Prop :=
  d = Double.nan ∨ Double.le (Double.finite 0) d

/-! ## `GetBasisSolvesCheckSolution` over a record of arithmetic operations -/

/-- The operations on `double` that `GetBasisSolvesCheckSolution` uses: the
literal `0`, `+`, `-`, `*` and `fabs`. -/
structure Arithmetic (D : Type) where
  zero : D
  add : D → D → D
  sub : D → D → D
  mul : D → D → D
  fabs : D → D

/-- Exact arithmetic on rationals. -/
def exactArithmetic : Arithmetic ℚ :=
  { zero := 0, add := fun a b => a + b, sub := fun a b => a - b, mul := fun a b => a * b,
    fabs := fun a => abs a }

/-- IEEE-754 binary64 arithmetic. -/
def ieeeArithmetic : Arithmetic Double :=
  { zero := Double.finite 0, add := Double.add, sub := Double.sub, mul := Double.mul,
    fabs := Double.fabs }

/-- The model data of `class HighsLp` with matrix values of type `D`. -/
structure HighsLpOf (D : Type) where
  numCol_ : Int := 0
  numRow_ : Int := 0
  Astart_ : List Int := []
  Aindex_ : List Int := []
  Avalue_ : List D := []

/-- An LP with rational values as an `HighsLpOf ℚ`. -/
def HighsLp.toOf (lp : HighsLp) : HighsLpOf ℚ :=
  { numCol_ := lp.numCol_, numRow_ := lp.numRow_, Astart_ := lp.Astart_,
    Aindex_ := lp.Aindex_, Avalue_ := lp.Avalue_ }

/-- The loop `for (int el = lp.Astart_[col]; el < lp.Astart_[col+1]; el++) body`. -/
def columnLoopOf {D σ : Type} (lp : HighsLpOf D) (col : Int) (body : Int → σ → Option σ)
    (s : σ) : Option σ :=
  (readAt lp.Astart_ col).bind fun first =>
  (checkInt (col + 1)).bind fun next =>
  (readAt lp.Astart_ next).bind fun last =>
  forRange first last body s

/-- Compound assignment `xs[i] += v`. -/
def addAtOf {D : Type} (A : Arithmetic D) (xs : List D) (i : Int) (v : D) : Option (List D) :=
  (readAt xs i).bind fun old => writeAt xs i (A.add old v)

/-- The call `vec.assign(n, v)` with an `int` count. -/
def vectorAssignOf {D : Type} (n : Int) (v : D) : Option (List D) :=
  if 0 ≤ n then some (List.replicate n.toNat v) else none

/-- Line 69-70: `int row = lp.Aindex_[el];
basis_matrix_times_solution[row] += lp.Avalue_[el]*solution[k];`. -/
def scatterEntryOf {D : Type} (A : Arithmetic D) (lp : HighsLpOf D) (solution : List D)
    (k : Int) (el : Int) (y : List D) : Option (List D) :=
  (readAt lp.Aindex_ el).bind fun row =>
  (readAt lp.Avalue_ el).bind fun a =>
  (readAt solution k).bind fun xk =>
  addAtOf A y row (A.mul a xk)

/-- Lines 62-72: body of the slot loop of the forward direction. -/
def forwardSlotOf {D : Type} (A : Arithmetic D) (lp : HighsLpOf D)
    (basic_variables : List Int) (solution : List D) (k : Int) (y : List D) :
    Option (List D) :=
  (readAt basic_variables k).bind fun var =>
  if var < 0 then
    (logicalRow var).bind fun row =>
    (readAt solution k).bind fun xk =>
    addAtOf A y row xk
  else
    columnLoopOf lp var (scatterEntryOf A lp solution k) y

/-- Lines 49-50: `int row = lp.Aindex_[el];
residual += lp.Avalue_[el]*solution[row];`. -/
def dotEntryOf {D : Type} (A : Arithmetic D) (lp : HighsLpOf D) (solution : List D)
    (el : Int) (residual : D) : Option D :=
  (readAt lp.Aindex_ el).bind fun row =>
  (readAt lp.Avalue_ el).bind fun a =>
  (readAt solution row).bind fun x =>
  some (A.add residual (A.mul a x))

/-- Lines 40-56: body of the slot loop of the transpose direction; the state is
`residual_norm`. -/
def transposeResidualOf {D : Type} (A : Arithmetic D) (lp : HighsLpOf D)
    (basic_variables : List Int) (rhs solution : List D) (k : Int) (residual_norm : D) :
    Option D :=
  (readAt basic_variables k).bind fun var =>
  if var < 0 then
    (logicalRow var).bind fun row =>
    (readAt rhs k).bind fun b =>
    (readAt solution row).bind fun x =>
    some (A.add residual_norm (A.fabs (A.sub b x)))
  else
    (columnLoopOf lp var (dotEntryOf A lp solution) A.zero).bind fun residual =>
    (readAt rhs k).bind fun b =>
    some (A.add residual_norm (A.fabs (A.sub b residual)))

/-- Lines 75-78: body of the final loop of the forward direction. -/
def forwardResidualOf {D : Type} (A : Arithmetic D) (rhs basis_matrix_times_solution : List D)
    (k : Int) (residual_norm : D) : Option D :=
  (readAt rhs k).bind fun b =>
  (readAt basis_matrix_times_solution k).bind fun y =>
  some (A.add residual_norm (A.fabs (A.sub b y)))

/-- The function `GetBasisSolvesCheckSolution(lp, basic_variables, rhs, solution,
transpose)` with the arithmetic of `double` given by `A`; with `exactArithmetic` it
is `GetBasisSolvesCheckSolution`. -/
def GetBasisSolvesCheckSolutionOf {D : Type} (A : Arithmetic D) (lp : HighsLpOf D)
    (basic_variables : List Int) (rhs solution : List D) (transpose : Bool) : Option D :=
  if transpose then
    forRange 0 lp.numRow_ (transposeResidualOf A lp basic_variables rhs solution) A.zero
  else
    (vectorAssignOf lp.numRow_ A.zero).bind fun basis_matrix_times_solution =>
    (forRange 0 lp.numRow_ (forwardSlotOf A lp basic_variables solution)
      basis_matrix_times_solution).bind fun basis_matrix_times_solution =>
    forRange 0 lp.numRow_ (forwardResidualOf A rhs basis_matrix_times_solution) A.zero

/-- The 2x2 identity constraint matrix with `double` values. -/
def identityLpIEEE : HighsLpOf Double :=
  { numCol_ := 2, numRow_ := 2, Astart_ := [0, 1, 2], Aindex_ := [0, 1],
    Avalue_ := [Double.finite 1, Double.finite 1] }

/-- A 2-row, 1-column LP with the finite `double` values `2^1023` in row 0 and
`-2^1023` in row 1. -/
def largeValueLp : HighsLpOf Double :=
  { numCol_ := 1, numRow_ := 2, Astart_ := [0, 2], Aindex_ := [0, 1],
    Avalue_ := [Double.finite (pow2 1023), Double.finite (-pow2 1023)] }

/-! ## Basic facts about machine integers and buffers -/

theorem readAt_natCast {α : Type} (xs : List α) (j : Nat) : readAt xs (j : Int) = xs[j]? := by
  simp [readAt]

theorem readAt_of_lt {α : Type} {xs : List α} {j : Nat} (h : j < xs.length) (d : α) :
    readAt xs (j : Int) = some (xs.getD j d) := by
  simp [readAt, List.getD, List.getElem?_eq_getElem h]

theorem writeAt_of_lt {α : Type} {xs : List α} {j : Nat} (h : j < xs.length) (v : α) :
    writeAt xs (j : Int) v = some (xs.set j v) := by
  simp [writeAt, h]

theorem addAt_of_lt {xs : List ℚ} {j : Nat} (h : j < xs.length) (v : ℚ) :
    addAt xs (j : Int) v = some (xs.set j (xs.getD j 0 + v)) := by
  simp [addAt, readAt_of_lt h 0, writeAt_of_lt h]

theorem getD_set_eq {α : Type} (xs : List α) (j i : Nat) (v d : α) (h : j < xs.length) :
    (xs.set j v).getD i d = if j = i then v else xs.getD i d := by
  by_cases hji : j = i
  · subst hji
    simp [List.getD, List.getElem?_set, h]
  · simp [List.getD, List.getElem?_set, hji]

/-- Reading at an `int` index that is a valid position. -/
theorem readAt_of_range {α : Type} {xs : List α} {z : Int} (h0 : 0 ≤ z)
    (h1 : z.toNat < xs.length) (d : α) : readAt xs z = some (xs.getD z.toNat d) := by
  have := readAt_of_lt h1 d
  rwa [Int.toNat_of_nonneg h0] at this

theorem addAt_of_range {xs : List ℚ} {z : Int} (h0 : 0 ≤ z) (h1 : z.toNat < xs.length)
    (v : ℚ) : addAt xs z v = some (xs.set z.toNat (xs.getD z.toNat 0 + v)) := by
  have := addAt_of_lt h1 v
  rwa [Int.toNat_of_nonneg h0] at this

theorem checkInt_eq_some {z : Int} (h1 : INT_MIN ≤ z) (h2 : z ≤ INT_MAX) :
    checkInt z = some z := by
  simp [checkInt, h1, h2]

theorem logicalRow_eq_some {var : Int} (h1 : INT_MIN ≤ var) (h2 : var < 0) :
    logicalRow var = some (-(1 + var)) := by
  have a1 : INT_MIN ≤ 1 + var := by omega
  have a2 : 1 + var ≤ INT_MAX := by unfold INT_MAX; omega
  have a3 : INT_MIN ≤ -(1 + var) := by unfold INT_MIN; omega
  have a4 : -(1 + var) ≤ INT_MAX := by unfold INT_MIN at h1; unfold INT_MAX; omega
  unfold logicalRow
  rw [checkInt_eq_some a1 a2]
  exact checkInt_eq_some a3 a4

theorem decode_of_neg {var : Int} (h1 : INT_MIN ≤ var) (h2 : var < 0) :
    decode var = some (BasicVariable.Logical (-(1 + var))) := by
  simp [decode, h2, logicalRow_eq_some h1 h2]

theorem decode_of_nonneg {var : Int} (h : 0 ≤ var) :
    decode var = some (BasicVariable.Structural var) := by
  have : ¬ var < 0 := by omega
  simp [decode, this]

/-! ## Sums over a window of consecutive indices -/

theorem sum_window (L lo m : Nat) (h : lo + m ≤ L) (g : Nat → ℚ) :
    ∑ el ∈ Finset.range L, (if lo ≤ el ∧ el < lo + m then g el else 0)
      = ∑ j ∈ Finset.range m, g (lo + j) := by
  rw [← Finset.sum_filter]
  have hf : Finset.filter (fun el => lo ≤ el ∧ el < lo + m) (Finset.range L)
      = Finset.Ico lo (lo + m) := by
    ext el
    simp only [Finset.mem_filter, Finset.mem_range, Finset.mem_Ico]
    omega
  rw [hf, Finset.sum_Ico_eq_sum_range]
  simp

theorem getD_mem {α : Type} {xs : List α} {j : Nat} (h : j < xs.length) (d : α) :
    xs.getD j d ∈ xs := by
  rw [List.getD_eq_getElem _ _ h]
  exact List.getElem_mem h

/-! ## The loops of the forward direction -/

theorem forLoop_succ {σ : Type} (body : Int → σ → Option σ) (m : Nat) (i : Int) (s : σ) :
    forLoop body (m + 1) i s = (body i s).bind (forLoop body m (i + 1)) := rfl

/-- The column loop of the forward direction over the entries `lo, ..., lo+m-1`
adds `Avalue_[el]*solution[k]` to `y[Aindex_[el]]` for each of them. -/
theorem forLoop_scatterEntry (lp : HighsLp) (sol : List ℚ) (k n : Nat)
    (hk : k < sol.length) (hrng : ∀ r ∈ lp.Aindex_, 0 ≤ r ∧ r.toNat < n) :
    ∀ (m lo : Nat) (y : List ℚ), lo + m ≤ lp.Aindex_.length → lo + m ≤ lp.Avalue_.length →
      n ≤ y.length →
      ∃ y', forLoop (scatterEntry lp sol k) m lo y = some y' ∧ y'.length = y.length ∧
        ∀ i, y'.getD i 0 = y.getD i 0 + ∑ j ∈ Finset.range m,
          if lp.Aindex_.getD (lo + j) 0 = (i : Int)
          then lp.Avalue_.getD (lo + j) 0 * sol.getD k 0 else 0 := by
  intro m
  induction m with
  | zero =>
    intro lo y _ _ hy
    exact ⟨y, rfl, rfl, by simp⟩
  | succ m ih =>
    intro lo y h1 h2 hy
    have hlo1 : lo < lp.Aindex_.length := by omega
    have hlo2 : lo < lp.Avalue_.length := by omega
    obtain ⟨hr0, hr1⟩ := hrng _ (getD_mem hlo1 0)
    replace hr1 : (lp.Aindex_.getD lo 0).toNat < y.length := by omega
    have hstep : scatterEntry lp sol k lo y = some (y.set (lp.Aindex_.getD lo 0).toNat
        (y.getD (lp.Aindex_.getD lo 0).toNat 0 + lp.Avalue_.getD lo 0 * sol.getD k 0)) := by
      unfold scatterEntry
      rw [readAt_of_lt hlo1 0, readAt_of_lt hlo2 0, readAt_of_lt hk 0]
      exact addAt_of_range hr0 hr1 _
    obtain ⟨y', hy', hlen, hval⟩ := ih (lo + 1) _ (by omega) (by omega)
      (show n ≤ (y.set (lp.Aindex_.getD lo 0).toNat
        (y.getD (lp.Aindex_.getD lo 0).toNat 0 + lp.Avalue_.getD lo 0 * sol.getD k 0)).length
        by simpa using hy)
    refine ⟨y', ?_, by simpa using hlen, ?_⟩
    · rw [forLoop_succ, hstep]
      simpa using hy'
    · intro i
      rw [hval i, getD_set_eq _ _ _ _ _ hr1, Finset.sum_range_succ']
      have hidx : ∀ j, lo + 1 + j = lo + (j + 1) := by intro j; omega
      simp only [hidx, Nat.add_zero]
      by_cases hi : lp.Aindex_.getD lo 0 = (i : Int)
      · have : (lp.Aindex_.getD lo 0).toNat = i := by omega
        rw [if_pos hi, if_pos this, this]; ring
      · have : ¬ (lp.Aindex_.getD lo 0).toNat = i := by omega
        rw [if_neg hi, if_neg this]; ring

/-! ## Consequences of the data-model invariants -/

theorem WellFormed.Astart_mono {lp : HighsLp} (h : WellFormed lp) {i j : Nat}
    (hij : i ≤ j) (hj : j < lp.Astart_.length) :
    lp.Astart_.getD i 0 ≤ lp.Astart_.getD j 0 := by
  have hi : i < lp.Astart_.length := by omega
  rw [List.getD_eq_getElem _ _ hi, List.getD_eq_getElem _ _ hj]
  rcases Nat.lt_or_ge i j with hlt | hge
  · exact (List.pairwise_iff_getElem.mp h.Astart_sorted) i j hi hj hlt
  · have : i = j := by omega
    subst this
    exact le_refl _

/-- The entries of a column `0 ≤ c < numCol_` form a window `lo, ..., lo+m-1`
inside `Aindex_` and `Avalue_`. -/
theorem WellFormed.column {lp : HighsLp} (h : WellFormed lp) {c : Int}
    (h0 : 0 ≤ c) (h1 : c < lp.numCol_) :
    ∃ lo m : Nat, lp.Astart_.getD c.toNat 0 = (lo : Int) ∧
      lp.Astart_.getD (c + 1).toNat 0 = ((lo + m : Nat) : Int) ∧
      lo + m ≤ lp.Aindex_.length ∧ lo + m ≤ lp.Avalue_.length ∧
      c.toNat < lp.Astart_.length ∧ (c + 1).toNat < lp.Astart_.length := by
  have hlen := h.Astart_length
  have hc : c.toNat < lp.Astart_.length := by omega
  have hc1 : (c + 1).toNat < lp.Astart_.length := by omega
  have hpos : 0 < lp.Astart_.length := by omega
  have hfirst : 0 ≤ lp.Astart_.getD 0 0 := by
    apply h.Astart_first
    rw [List.head?_eq_getElem?, List.getD_eq_getElem _ _ hpos, List.getElem?_eq_getElem hpos]
    rfl
  have hlastIdx : lp.Astart_.length - 1 < lp.Astart_.length := by omega
  have hlast := h.Astart_last (lp.Astart_.getD (lp.Astart_.length - 1) 0) (by
    rw [List.getLast?_eq_getElem?, List.getD_eq_getElem _ _ hlastIdx,
      List.getElem?_eq_getElem hlastIdx]
    rfl)
  have m1 := h.Astart_mono (Nat.zero_le c.toNat) hc
  have m2 := h.Astart_mono (show c.toNat ≤ (c + 1).toNat by omega) hc1
  have m3 := h.Astart_mono (show (c + 1).toNat ≤ lp.Astart_.length - 1 by omega) hlastIdx
  refine ⟨(lp.Astart_.getD c.toNat 0).toNat,
    (lp.Astart_.getD (c + 1).toNat 0).toNat - (lp.Astart_.getD c.toNat 0).toNat,
    ?_, ?_, ?_, ?_, hc, hc1⟩ <;> omega

/-- Under the invariants the column loop of an in-range column runs over the
window of its entries. -/
theorem columnLoop_eq_forLoop {σ : Type} {lp : HighsLp} (h : WellFormed lp) {c : Int}
    (h0 : 0 ≤ c) (h1 : c < lp.numCol_) (body : Int → σ → Option σ) (s : σ) (lo m : Nat)
    (hlo : lp.Astart_.getD c.toNat 0 = (lo : Int))
    (hhi : lp.Astart_.getD (c + 1).toNat 0 = ((lo + m : Nat) : Int)) :
    columnLoop lp c body s = forLoop body m lo s := by
  obtain ⟨_, _, _, _, _, _, hc, hc1⟩ := h.column h0 h1
  have hci : checkInt (c + 1) = some (c + 1) := by
    have := h.numCol_int
    unfold isInt at this
    apply checkInt_eq_some
    · unfold INT_MIN; omega
    · omega
  unfold columnLoop
  rw [readAt_of_range h0 hc 0, hci]
  simp only [Option.bind]
  rw [readAt_of_range (by omega) hc1 0]
  simp only [Option.bind, forRange]
  rw [hlo, hhi]
  congr 1
  omega

theorem logicalRow_some {var r : Int} (h : logicalRow var = some r) : r = -(1 + var) := by
  unfold logicalRow checkInt at h
  split_ifs at h with h1
  · simp only [Option.bind] at h
    split_ifs at h with h2
    · simp at h; omega
  · simp at h

/-- What `DecodesInRange` says about one raw entry. -/
theorem decode_inRange_cases {lp : HighsLp} {v : Int}
    (h : ∃ b, decode v = some b ∧ b.InRange lp) :
    (v < 0 ∧ logicalRow v = some (-(1 + v)) ∧
      decode v = some (BasicVariable.Logical (-(1 + v))) ∧ -(1 + v) < lp.numRow_) ∨
    (0 ≤ v ∧ v < lp.numCol_ ∧ decode v = some (BasicVariable.Structural v)) := by
  obtain ⟨b, hb, hr⟩ := h
  by_cases hv : v < 0
  · left
    unfold decode at hb
    rw [if_pos hv] at hb
    cases hlr : logicalRow v with
    | none => rw [hlr] at hb; simp at hb
    | some r =>
      have hr' := logicalRow_some hlr
      subst hr'
      rw [hlr] at hb
      simp only [Option.map_some', Option.some.injEq] at hb
      subst hb
      refine ⟨hv, rfl, ?_, hr.2⟩
      unfold decode
      rw [if_pos hv, hlr]
      rfl
  · right
    have h0 : 0 ≤ v := not_lt.mp hv
    rw [decode_of_nonneg h0] at hb
    simp only [Option.some.injEq] at hb
    subst hb
    exact ⟨h0, hr.2, decode_of_nonneg h0⟩

theorem isEntryOf_iff {lp : HighsLp} {c : Int} {lo m : Nat}
    (hlo : lp.Astart_.getD c.toNat 0 = (lo : Int))
    (hhi : lp.Astart_.getD (c + 1).toNat 0 = ((lo + m : Nat) : Int)) (el : Nat) :
    isEntryOf lp c el ↔ lo ≤ el ∧ el < lo + m := by
  unfold isEntryOf
  rw [hlo, hhi]
  omega

/-- One pass of the slot loop of the forward direction adds the contribution of
slot `k` to every row. -/
theorem forwardSlot_spec {lp : HighsLp} (h : WellFormed lp) {bv : List Int} {x : List ℚ}
    (hbv : DecodesInRange lp bv) (hbl : bv.length = lp.numRow_.toNat)
    (hx : x.length = lp.numRow_.toNat) (k : Nat) (hk : k < lp.numRow_.toNat)
    (y : List ℚ) (hy : lp.numRow_.toNat ≤ y.length) :
    ∃ y', forwardSlot lp bv x k y = some y' ∧ y'.length = y.length ∧
      ∀ i, y'.getD i 0 = y.getD i 0 + slotContribution lp bv x k i := by
  have hkb : k < bv.length := by omega
  have hkx : k < x.length := by omega
  unfold forwardSlot slotContribution
  rw [readAt_of_lt hkb 0]
  simp only [Option.bind]
  rcases decode_inRange_cases (hbv _ (getD_mem hkb 0)) with ⟨hneg, hlr, hd, hrow⟩ | ⟨h0, h1, hd⟩
  · rw [if_pos hneg, hlr, hd]
    simp only [Option.bind]
    rw [readAt_of_lt hkx 0]
    simp only [Option.bind]
    have hr0 : 0 ≤ -(1 + bv.getD k 0) := by omega
    have hr1 : (-(1 + bv.getD k 0)).toNat < y.length := by omega
    rw [addAt_of_range hr0 hr1]
    refine ⟨_, rfl, by simp, ?_⟩
    intro i
    rw [getD_set_eq _ _ _ _ _ hr1]
    by_cases hi : -(1 + bv.getD k 0) = (i : Int)
    · have : (-(1 + bv.getD k 0)).toNat = i := by omega
      rw [if_pos hi, if_pos this, this]
    · have : ¬ (-(1 + bv.getD k 0)).toNat = i := by omega
      rw [if_neg hi, if_neg this]; ring
  · rw [if_neg (not_lt.mpr h0), hd]
    obtain ⟨lo, m, hlo, hhi, hA, hV, _, _⟩ := h.column h0 h1
    rw [columnLoop_eq_forLoop h h0 h1 _ _ lo m hlo hhi]
    have hrng : ∀ r ∈ lp.Aindex_, 0 ≤ r ∧ r.toNat < lp.numRow_.toNat := by
      intro r hr
      have := h.Aindex_range r hr
      omega
    obtain ⟨y', hy', hlen, hval⟩ :=
      forLoop_scatterEntry lp x k lp.numRow_.toNat hkx hrng m lo y hA hV hy
    refine ⟨y', hy', hlen, ?_⟩
    intro i
    rw [hval i]
    congr 1
    show _ = ∑ el ∈ Finset.range lp.Aindex_.length,
        if isEntryOf lp (bv.getD k 0) el ∧ lp.Aindex_.getD el 0 = (i : Int)
        then lp.Avalue_.getD el 0 * x.getD k 0 else 0
    rw [← sum_window lp.Aindex_.length lo m hA
      (fun el => if lp.Aindex_.getD el 0 = (i : Int)
        then lp.Avalue_.getD el 0 * x.getD k 0 else 0)]
    apply Finset.sum_congr rfl
    intro el _
    simp only [isEntryOf_iff hlo hhi, ite_and]

/-- The slot loop of the forward direction over the slots `lo, ..., lo+m-1`. -/
theorem forLoop_forwardSlot {lp : HighsLp} (h : WellFormed lp) {bv : List Int} {x : List ℚ}
    (hbv : DecodesInRange lp bv) (hbl : bv.length = lp.numRow_.toNat)
    (hx : x.length = lp.numRow_.toNat) :
    ∀ (m lo : Nat) (y : List ℚ), lo + m ≤ lp.numRow_.toNat → lp.numRow_.toNat ≤ y.length →
      ∃ y', forLoop (forwardSlot lp bv x) m lo y = some y' ∧ y'.length = y.length ∧
        ∀ i, y'.getD i 0 = y.getD i 0 +
          ∑ j ∈ Finset.range m, slotContribution lp bv x (lo + j) i := by
  intro m
  induction m with
  | zero =>
    intro lo y _ _
    exact ⟨y, rfl, rfl, by simp⟩
  | succ m ih =>
    intro lo y h1 hy
    obtain ⟨y1, hy1, hlen1, hval1⟩ := forwardSlot_spec h hbv hbl hx lo (by omega) y hy
    obtain ⟨y', hy', hlen, hval⟩ := ih (lo + 1) y1 (by omega) (by omega)
    refine ⟨y', ?_, by omega, ?_⟩
    · rw [forLoop_succ, hy1]
      simpa using hy'
    · intro i
      rw [hval i, hval1 i, Finset.sum_range_succ']
      have hidx : ∀ j, lo + 1 + j = lo + (j + 1) := by intro j; omega
      simp only [hidx, Nat.add_zero]
      ring

/-- The loop `for (int k=0; k<numRow_; k++) rhs[k] = 0;` over `lo, ..., lo+m-1`. -/
theorem forLoop_zero :
    ∀ (m lo : Nat) (y : List ℚ), lo + m ≤ y.length →
      ∃ y', forLoop (fun k rhs => writeAt rhs k 0) m lo y = some y' ∧ y'.length = y.length ∧
        ∀ i, y'.getD i 0 = if lo ≤ i ∧ i < lo + m then 0 else y.getD i 0 := by
  intro m
  induction m with
  | zero =>
    intro lo y _
    refine ⟨y, rfl, rfl, ?_⟩
    intro i
    rw [if_neg (by omega)]
  | succ m ih =>
    intro lo y h1
    have hlo : lo < y.length := by omega
    obtain ⟨y', hy', hlen, hval⟩ := ih (lo + 1) (y.set lo 0) (by simp; omega)
    refine ⟨y', ?_, by simpa using hlen, ?_⟩
    · rw [forLoop_succ, writeAt_of_lt hlo]
      simpa using hy'
    · intro i
      rw [hval i, getD_set_eq _ _ _ _ _ hlo]
      by_cases hi : lo = i
      · subst hi
        rw [if_neg (by omega), if_pos rfl, if_pos (by omega)]
      · rw [if_neg hi]
        by_cases hi2 : lo + 1 ≤ i ∧ i < lo + 1 + m
        · rw [if_pos hi2, if_pos (by omega)]
        · rw [if_neg hi2, if_neg (by omega)]

theorem forwardImage_eq_sum (lp : HighsLp) (bv : List Int) (x : List ℚ) (i : Nat) :
    forwardImage lp bv x i
      = ∑ k ∈ Finset.range lp.numRow_.toNat, slotContribution lp bv x k i := by
  unfold forwardImage slotContribution
  rw [← Finset.sum_add_distrib]
  apply Finset.sum_congr rfl
  intro k _
  cases hd : decode (bv.getD k 0) with
  | none => simp
  | some b =>
    cases b with
    | Structural c => simp
    | Logical r => simp

/-- The forward direction of `GetBasisSolvesFormRHS` returns, and row `i` of the
buffer then holds `forwardImage`. -/
theorem formRHS_forward {lp : HighsLp} (h : WellFormed lp) {bv : List Int} {x rhs : List ℚ}
    (hbv : DecodesInRange lp bv) (hbl : bv.length = lp.numRow_.toNat)
    (hx : x.length = lp.numRow_.toNat) (hr : lp.numRow_.toNat ≤ rhs.length) :
    ∃ y, GetBasisSolvesFormRHS lp bv x rhs false = some y ∧ y.length = rhs.length ∧
      ∀ i, i < lp.numRow_.toNat → y.getD i 0 = forwardImage lp bv x i := by
  obtain ⟨z, hz, hzlen, hzval⟩ := forLoop_zero lp.numRow_.toNat 0 rhs (by omega)
  obtain ⟨y, hy, hylen, hyval⟩ :=
    forLoop_forwardSlot h hbv hbl hx lp.numRow_.toNat 0 z (by omega) (by omega)
  refine ⟨y, ?_, by omega, ?_⟩
  · unfold GetBasisSolvesFormRHS forRange
    simp only [Bool.false_eq_true, if_false, sub_zero]
    rw [show ((0 : Nat) : Int) = 0 from rfl] at hz hy
    rw [hz]
    exact hy
  · intro i hi
    rw [hyval i, hzval i, if_pos (by omega), forwardImage_eq_sum]
    simp

/-! ## The loops of the transpose direction -/

/-- The column loop of the transpose direction of `GetBasisSolvesFormRHS` over the
entries `lo, ..., lo+m-1` adds their dot product with `solution` to `rhs[k]`. -/
theorem forLoop_gatherEntry (lp : HighsLp) (sol : List ℚ) (k : Nat)
    (hrng : ∀ r ∈ lp.Aindex_, 0 ≤ r ∧ r.toNat < sol.length) :
    ∀ (m lo : Nat) (y : List ℚ), lo + m ≤ lp.Aindex_.length → lo + m ≤ lp.Avalue_.length →
      k < y.length →
      ∃ y', forLoop (gatherEntry lp sol k) m lo y = some y' ∧ y'.length = y.length ∧
        ∀ i, y'.getD i 0 = if k = i then y.getD i 0 + ∑ j ∈ Finset.range m,
          lp.Avalue_.getD (lo + j) 0 * sol.getD (lp.Aindex_.getD (lo + j) 0).toNat 0
          else y.getD i 0 := by
  intro m
  induction m with
  | zero =>
    intro lo y _ _ _
    exact ⟨y, rfl, rfl, by simp⟩
  | succ m ih =>
    intro lo y h1 h2 hk
    have hlo1 : lo < lp.Aindex_.length := by omega
    have hlo2 : lo < lp.Avalue_.length := by omega
    obtain ⟨hr0, hr1⟩ := hrng _ (getD_mem hlo1 0)
    have hstep : gatherEntry lp sol k lo y = some (y.set k
        (y.getD k 0 + lp.Avalue_.getD lo 0 * sol.getD (lp.Aindex_.getD lo 0).toNat 0)) := by
      unfold gatherEntry
      rw [readAt_of_lt hlo1 0, readAt_of_lt hlo2 0]
      simp only [Option.bind]
      rw [readAt_of_range hr0 hr1 0]
      exact addAt_of_lt hk _
    obtain ⟨y', hy', hlen, hval⟩ := ih (lo + 1) _ (by omega) (by omega)
      (show k < (y.set k
        (y.getD k 0 + lp.Avalue_.getD lo 0 * sol.getD (lp.Aindex_.getD lo 0).toNat 0)).length
        by simpa using hk)
    refine ⟨y', ?_, by simpa using hlen, ?_⟩
    · rw [forLoop_succ, hstep]
      simpa using hy'
    · intro i
      rw [hval i, getD_set_eq _ _ _ _ _ hk, Finset.sum_range_succ']
      have hidx : ∀ j, lo + 1 + j = lo + (j + 1) := by intro j; omega
      simp only [hidx, Nat.add_zero]
      by_cases hi : k = i
      · subst hi
        simp only [eq_self_iff_true, if_true]; ring
      · simp only [hi, if_false]

/-- The column loop of the transpose direction of `GetBasisSolvesCheckSolution`
over the entries `lo, ..., lo+m-1` adds their dot product with `solution`. -/
theorem forLoop_dotEntry (lp : HighsLp) (sol : List ℚ)
    (hrng : ∀ r ∈ lp.Aindex_, 0 ≤ r ∧ r.toNat < sol.length) :
    ∀ (m lo : Nat) (acc : ℚ), lo + m ≤ lp.Aindex_.length → lo + m ≤ lp.Avalue_.length →
      forLoop (dotEntry lp sol) m lo acc = some (acc + ∑ j ∈ Finset.range m,
          lp.Avalue_.getD (lo + j) 0 * sol.getD (lp.Aindex_.getD (lo + j) 0).toNat 0) := by
  intro m
  induction m with
  | zero =>
    intro lo acc _ _
    simp [forLoop]
  | succ m ih =>
    intro lo acc h1 h2
    have hlo1 : lo < lp.Aindex_.length := by omega
    have hlo2 : lo < lp.Avalue_.length := by omega
    obtain ⟨hr0, hr1⟩ := hrng _ (getD_mem hlo1 0)
    have hstep : dotEntry lp sol lo acc = some
        (acc + lp.Avalue_.getD lo 0 * sol.getD (lp.Aindex_.getD lo 0).toNat 0) := by
      unfold dotEntry
      rw [readAt_of_lt hlo1 0, readAt_of_lt hlo2 0]
      simp only [Option.bind]
      rw [readAt_of_range hr0 hr1 0]
    rw [forLoop_succ, hstep]
    have := ih (lo + 1) (acc + lp.Avalue_.getD lo 0 *
      sol.getD (lp.Aindex_.getD lo 0).toNat 0) (by omega) (by omega)
    simp only [Option.bind, Nat.cast_add, Nat.cast_one] at this ⊢
    rw [this, Finset.sum_range_succ']
    have hidx : ∀ j, lo + 1 + j = lo + (j + 1) := by intro j; omega
    simp only [hidx, Nat.add_zero]
    congr 1
    ring

theorem transposeImage_structural {lp : HighsLp} {bv : List Int} {x : List ℚ} {k lo m : Nat}
    (hd : decode (bv.getD k 0) = some (BasicVariable.Structural (bv.getD k 0)))
    (hlo : lp.Astart_.getD (bv.getD k 0).toNat 0 = (lo : Int))
    (hhi : lp.Astart_.getD (bv.getD k 0 + 1).toNat 0 = ((lo + m : Nat) : Int))
    (hA : lo + m ≤ lp.Aindex_.length) :
    transposeImage lp bv x k = ∑ j ∈ Finset.range m,
      lp.Avalue_.getD (lo + j) 0 * x.getD (lp.Aindex_.getD (lo + j) 0).toNat 0 := by
  unfold transposeImage
  rw [hd]
  show (∑ el ∈ Finset.range lp.Aindex_.length,
        if isEntryOf lp (bv.getD k 0) el
        then lp.Avalue_.getD el 0 * x.getD (lp.Aindex_.getD el 0).toNat 0 else 0) = _
  rw [← sum_window lp.Aindex_.length lo m hA
    (fun el => lp.Avalue_.getD el 0 * x.getD (lp.Aindex_.getD el 0).toNat 0)]
  apply Finset.sum_congr rfl
  intro el _
  simp only [isEntryOf_iff hlo hhi]

theorem WellFormed.Aindex_lt {lp : HighsLp} (h : WellFormed lp) {x : List ℚ}
    (hx : x.length = lp.numRow_.toNat) :
    ∀ r ∈ lp.Aindex_, 0 ≤ r ∧ r.toNat < x.length := by
  intro r hr
  have := h.Aindex_range r hr
  omega

/-- One pass of the slot loop of the transpose direction of
`GetBasisSolvesFormRHS` stores `transposeImage` in `rhs[k]` and nothing else. -/
theorem transposeSlot_spec {lp : HighsLp} (h : WellFormed lp) {bv : List Int} {x : List ℚ}
    (hbv : DecodesInRange lp bv) (hbl : bv.length = lp.numRow_.toNat)
    (hx : x.length = lp.numRow_.toNat) (k : Nat) (hk : k < lp.numRow_.toNat)
    (y : List ℚ) (hy : lp.numRow_.toNat ≤ y.length) :
    ∃ y', transposeSlot lp bv x k y = some y' ∧ y'.length = y.length ∧
      ∀ i, y'.getD i 0 = if k = i then transposeImage lp bv x k else y.getD i 0 := by
  have hkb : k < bv.length := by omega
  have hky : k < y.length := by omega
  have hky' : k < (y.set k 0).length := by simpa using hky
  unfold transposeSlot
  rw [writeAt_of_lt hky]
  simp only [Option.bind]
  rw [readAt_of_lt hkb 0]
  simp only [Option.bind]
  rcases decode_inRange_cases (hbv _ (getD_mem hkb 0)) with ⟨hneg, hlr, hd, hrow⟩ | ⟨h0, h1, hd⟩
  · rw [if_pos hneg, hlr]
    simp only [Option.bind]
    have hr0 : 0 ≤ -(1 + bv.getD k 0) := by omega
    have hr1 : (-(1 + bv.getD k 0)).toNat < x.length := by omega
    rw [readAt_of_range hr0 hr1 0]
    simp only [Option.bind]
    rw [writeAt_of_lt hky']
    refine ⟨_, rfl, by simp, ?_⟩
    intro i
    rw [getD_set_eq _ _ _ _ _ hky', getD_set_eq _ _ _ _ _ hky]
    by_cases hi : k = i
    · rw [if_pos hi, if_pos hi]
      unfold transposeImage
      rw [hd]
    · rw [if_neg hi, if_neg hi, if_neg hi]
  · rw [if_neg (not_lt.mpr h0)]
    obtain ⟨lo, m, hlo, hhi, hA, hV, _, _⟩ := h.column h0 h1
    rw [columnLoop_eq_forLoop h h0 h1 _ _ lo m hlo hhi]
    obtain ⟨y', hy', hlen, hval⟩ :=
      forLoop_gatherEntry lp x k (h.Aindex_lt hx) m lo (y.set k 0) hA hV hky'
    refine ⟨y', hy', by simpa using hlen, ?_⟩
    intro i
    rw [hval i, getD_set_eq _ _ _ _ _ hky]
    by_cases hi : k = i
    · rw [if_pos hi, if_pos hi, if_pos hi, transposeImage_structural hd hlo hhi hA]
      ring
    · rw [if_neg hi, if_neg hi, if_neg hi]

/-- The slot loop of the transpose direction of `GetBasisSolvesFormRHS` over the
slots `lo, ..., lo+m-1`. -/
theorem forLoop_transposeSlot {lp : HighsLp} (h : WellFormed lp) {bv : List Int}
    {x : List ℚ} (hbv : DecodesInRange lp bv) (hbl : bv.length = lp.numRow_.toNat)
    (hx : x.length = lp.numRow_.toNat) :
    ∀ (m lo : Nat) (y : List ℚ), lo + m ≤ lp.numRow_.toNat → lp.numRow_.toNat ≤ y.length →
      ∃ y', forLoop (transposeSlot lp bv x) m lo y = some y' ∧ y'.length = y.length ∧
        ∀ i, y'.getD i 0 =
          if lo ≤ i ∧ i < lo + m then transposeImage lp bv x i else y.getD i 0 := by
  intro m
  induction m with
  | zero =>
    intro lo y _ _
    refine ⟨y, rfl, rfl, ?_⟩
    intro i
    rw [if_neg (by omega)]
  | succ m ih =>
    intro lo y h1 hy
    obtain ⟨y1, hy1, hlen1, hval1⟩ := transposeSlot_spec h hbv hbl hx lo (by omega) y hy
    obtain ⟨y', hy', hlen, hval⟩ := ih (lo + 1) y1 (by omega) (by omega)
    refine ⟨y', ?_, by omega, ?_⟩
    · rw [forLoop_succ, hy1]
      simpa using hy'
    · intro i
      rw [hval i, hval1 i]
      by_cases hi : lo = i
      · subst hi
        rw [if_neg (by omega), if_pos rfl, if_pos (by omega)]
      · rw [if_neg hi]
        by_cases hi2 : lo + 1 ≤ i ∧ i < lo + 1 + m
        · rw [if_pos hi2, if_pos (by omega)]
        · rw [if_neg hi2, if_neg (by omega)]

/-- The transpose direction of `GetBasisSolvesFormRHS` returns, and slot `k` of
the buffer then holds `transposeImage`. -/
theorem formRHS_transpose {lp : HighsLp} (h : WellFormed lp) {bv : List Int}
    {x rhs : List ℚ} (hbv : DecodesInRange lp bv) (hbl : bv.length = lp.numRow_.toNat)
    (hx : x.length = lp.numRow_.toNat) (hr : lp.numRow_.toNat ≤ rhs.length) :
    ∃ y, GetBasisSolvesFormRHS lp bv x rhs true = some y ∧ y.length = rhs.length ∧
      ∀ k, k < lp.numRow_.toNat → y.getD k 0 = transposeImage lp bv x k := by
  obtain ⟨y, hy, hylen, hyval⟩ :=
    forLoop_transposeSlot h hbv hbl hx lp.numRow_.toNat 0 rhs (by omega) hr
  refine ⟨y, ?_, hylen, ?_⟩
  · unfold GetBasisSolvesFormRHS forRange
    simp only [if_true, sub_zero]
    exact hy
  · intro k hk
    rw [hyval k, if_pos (by omega)]

/-! ## The loops of `GetBasisSolvesCheckSolution` -/

/-- The final loop of the forward direction accumulates the absolute differences. -/
theorem forLoop_forwardResidual (rhs y : List ℚ) :
    ∀ (m lo : Nat) (acc : ℚ), lo + m ≤ rhs.length → lo + m ≤ y.length →
      forLoop (forwardResidual rhs y) m lo acc = some (acc + ∑ j ∈ Finset.range m,
          abs (rhs.getD (lo + j) 0 - y.getD (lo + j) 0)) := by
  intro m
  induction m with
  | zero =>
    intro lo acc _ _
    simp [forLoop]
  | succ m ih =>
    intro lo acc h1 h2
    have hstep : forwardResidual rhs y lo acc
        = some (acc + abs (rhs.getD lo 0 - y.getD lo 0)) := by
      unfold forwardResidual
      rw [readAt_of_lt (show lo < rhs.length by omega) 0,
        readAt_of_lt (show lo < y.length by omega) 0]
      rfl
    rw [forLoop_succ, hstep]
    have := ih (lo + 1) (acc + abs (rhs.getD lo 0 - y.getD lo 0)) (by omega) (by omega)
    simp only [Option.bind, Nat.cast_add, Nat.cast_one] at this ⊢
    rw [this, Finset.sum_range_succ']
    have hidx : ∀ j, lo + 1 + j = lo + (j + 1) := by intro j; omega
    simp only [hidx, Nat.add_zero]
    congr 1
    ring

/-- One pass of the slot loop of the transpose direction of
`GetBasisSolvesCheckSolution` adds `|rhs[k] - transposeImage k|`. -/
theorem transposeResidual_spec {lp : HighsLp} (h : WellFormed lp) {bv : List Int}
    {rhs x : List ℚ} (hbv : DecodesInRange lp bv) (hbl : bv.length = lp.numRow_.toNat)
    (hx : x.length = lp.numRow_.toNat) (hr : lp.numRow_.toNat ≤ rhs.length)
    (k : Nat) (hk : k < lp.numRow_.toNat) (acc : ℚ) :
    transposeResidual lp bv rhs x k acc
      = some (acc + abs (rhs.getD k 0 - transposeImage lp bv x k)) := by
  have hkb : k < bv.length := by omega
  have hkr : k < rhs.length := by omega
  unfold transposeResidual
  rw [readAt_of_lt hkb 0]
  simp only [Option.bind]
  rcases decode_inRange_cases (hbv _ (getD_mem hkb 0)) with ⟨hneg, hlr, hd, hrow⟩ | ⟨h0, h1, hd⟩
  · rw [if_pos hneg, hlr]
    simp only [Option.bind]
    have hr0 : 0 ≤ -(1 + bv.getD k 0) := by omega
    have hr1 : (-(1 + bv.getD k 0)).toNat < x.length := by omega
    rw [readAt_of_lt hkr 0]
    simp only [Option.bind]
    rw [readAt_of_range hr0 hr1 0]
    simp only [Option.bind]
    unfold transposeImage
    rw [hd]
  · rw [if_neg (not_lt.mpr h0)]
    obtain ⟨lo, m, hlo, hhi, hA, hV, _, _⟩ := h.column h0 h1
    rw [columnLoop_eq_forLoop h h0 h1 _ _ lo m hlo hhi,
      forLoop_dotEntry lp x (h.Aindex_lt hx) m lo 0 hA hV]
    simp only [Option.bind]
    rw [readAt_of_lt hkr 0, transposeImage_structural hd hlo hhi hA]
    simp only [Option.bind, zero_add]

/-- The slot loop of the transpose direction of `GetBasisSolvesCheckSolution`. -/
theorem forLoop_transposeResidual {lp : HighsLp} (h : WellFormed lp) {bv : List Int}
    {rhs x : List ℚ} (hbv : DecodesInRange lp bv) (hbl : bv.length = lp.numRow_.toNat)
    (hx : x.length = lp.numRow_.toNat) (hr : lp.numRow_.toNat ≤ rhs.length) :
    ∀ (m lo : Nat) (acc : ℚ), lo + m ≤ lp.numRow_.toNat →
      forLoop (transposeResidual lp bv rhs x) m lo acc = some (acc + ∑ j ∈ Finset.range m,
          abs (rhs.getD (lo + j) 0 - transposeImage lp bv x (lo + j))) := by
  intro m
  induction m with
  | zero =>
    intro lo acc _
    simp [forLoop]
  | succ m ih =>
    intro lo acc h1
    rw [forLoop_succ, transposeResidual_spec h hbv hbl hx hr lo (by omega)]
    have := ih (lo + 1) (acc + abs (rhs.getD lo 0 - transposeImage lp bv x lo)) (by omega)
    simp only [Option.bind, Nat.cast_add, Nat.cast_one] at this ⊢
    rw [this, Finset.sum_range_succ']
    have hidx : ∀ j, lo + 1 + j = lo + (j + 1) := by intro j; omega
    simp only [hidx, Nat.add_zero]
    congr 1
    ring

/-- The transpose direction of `GetBasisSolvesCheckSolution` returns the L1
distance between `rhs` and `transposeImage`. -/
theorem checkSolution_transpose {lp : HighsLp} (h : WellFormed lp) {bv : List Int}
    {rhs x : List ℚ} (hbv : DecodesInRange lp bv) (hbl : bv.length = lp.numRow_.toNat)
    (hx : x.length = lp.numRow_.toNat) (hr : lp.numRow_.toNat ≤ rhs.length) :
    GetBasisSolvesCheckSolution lp bv rhs x true
      = some (∑ k ∈ Finset.range lp.numRow_.toNat,
          abs (rhs.getD k 0 - transposeImage lp bv x k)) := by
  have := forLoop_transposeResidual h hbv hbl hx hr lp.numRow_.toNat 0 0 (by omega)
  unfold GetBasisSolvesCheckSolution forRange
  simp only [if_true, sub_zero]
  rw [show ((0 : Nat) : Int) = 0 from rfl] at this
  rw [this]
  simp

/-- The forward direction of `GetBasisSolvesCheckSolution` returns the L1
distance between `rhs` and `forwardImage`. -/
theorem checkSolution_forward {lp : HighsLp} (h : WellFormed lp) {bv : List Int}
    {rhs x : List ℚ} (hbv : DecodesInRange lp bv) (hbl : bv.length = lp.numRow_.toNat)
    (hx : x.length = lp.numRow_.toNat) (hr : lp.numRow_.toNat ≤ rhs.length)
    (h0 : 0 ≤ lp.numRow_) :
    GetBasisSolvesCheckSolution lp bv rhs x false
      = some (∑ k ∈ Finset.range lp.numRow_.toNat,
          abs (rhs.getD k 0 - forwardImage lp bv x k)) := by
  obtain ⟨y, hy, hylen, hyval⟩ := forLoop_forwardSlot h hbv hbl hx lp.numRow_.toNat 0
    (List.replicate lp.numRow_.toNat 0) (by omega) (by simp)
  have hres := forLoop_forwardResidual rhs y lp.numRow_.toNat 0 0 (by omega)
    (by rw [hylen]; simp)
  unfold GetBasisSolvesCheckSolution forRange vectorAssign
  simp only [Bool.false_eq_true, if_false, sub_zero, if_pos h0, Option.bind]
  rw [show ((0 : Nat) : Int) = 0 from rfl] at hy hres
  rw [hy]
  simp only []
  rw [hres]
  congr 1
  rw [zero_add]
  apply Finset.sum_congr rfl
  intro k hk
  have hk' : k < lp.numRow_.toNat := Finset.mem_range.mp hk
  rw [Nat.zero_add, hyval k, forwardImage_eq_sum]
  have : (List.replicate lp.numRow_.toNat (0 : ℚ)).getD k 0 = 0 := by
    simp [List.getD, List.getElem?_replicate, hk']
  rw [this]
  simp

/-! ## Accesses outside the buffers -/

theorem forLoop_preserves {σ : Type} (P : σ → Prop) (body : Int → σ → Option σ)
    (hP : ∀ i s s', P s → body i s = some s' → P s') :
    ∀ (m : Nat) (i : Int) (s s' : σ), P s → forLoop body m i s = some s' → P s' := by
  intro m
  induction m with
  | zero =>
    intro i s s' hs h
    simp only [forLoop, Option.some.injEq] at h
    exact h ▸ hs
  | succ m ih =>
    intro i s s' hs h
    rw [forLoop_succ] at h
    cases hb : body i s with
    | none => rw [hb] at h; simp at h
    | some s1 =>
      rw [hb] at h
      exact ih (i + 1) s1 s' (hP i s s1 hs hb) h

/-- A loop one of whose passes fails on every state it can meet does not return. -/
theorem forLoop_eq_none {σ : Type} (P : σ → Prop) (body : Int → σ → Option σ)
    (hP : ∀ i s s', P s → body i s = some s' → P s') (j : Nat)
    (hfail : ∀ s, P s → body j s = none) :
    ∀ (m lo : Nat) (s : σ), lo ≤ j → j < lo + m → P s → forLoop body m lo s = none := by
  intro m
  induction m with
  | zero =>
    intro lo s h1 h2 _
    omega
  | succ m ih =>
    intro lo s h1 h2 hs
    rw [forLoop_succ]
    cases hb : body lo s with
    | none => rfl
    | some s1 =>
      have hne : lo ≠ j := by
        intro he
        subst he
        rw [hfail s hs] at hb
        simp at hb
      have := ih (lo + 1) s1 (by omega) (by omega) (hP _ _ _ hs hb)
      simpa using this

theorem readAt_eq_none {α : Type} {xs : List α} {i : Int} (h : (xs.length : Int) ≤ i) :
    readAt xs i = none := by
  unfold readAt
  split_ifs with h0
  · exact List.getElem?_eq_none (by omega)
  · rfl

theorem writeAt_eq_none {α : Type} {xs : List α} {i : Int} (v : α)
    (h : (xs.length : Int) ≤ i) : writeAt xs i v = none := by
  unfold writeAt
  rw [if_neg]
  omega

theorem addAt_eq_none {xs : List ℚ} {i : Int} (v : ℚ) (h : (xs.length : Int) ≤ i) :
    addAt xs i v = none := by
  unfold addAt
  rw [readAt_eq_none h]
  rfl

theorem writeAt_length {α : Type} {xs ys : List α} {i : Int} {v : α}
    (h : writeAt xs i v = some ys) : ys.length = xs.length := by
  unfold writeAt at h
  split_ifs at h
  simp only [Option.some.injEq] at h
  rw [← h, List.length_set]

theorem addAt_length {xs ys : List ℚ} {i : Int} {v : ℚ} (h : addAt xs i v = some ys) :
    ys.length = xs.length := by
  unfold addAt at h
  cases hr : readAt xs i with
  | none => rw [hr] at h; simp at h
  | some old =>
    rw [hr] at h
    exact writeAt_length h

theorem scatterEntry_length {lp : HighsLp} {sol : List ℚ} {k el : Int} {y y' : List ℚ}
    (h : scatterEntry lp sol k el y = some y') : y'.length = y.length := by
  unfold scatterEntry at h
  cases h1 : readAt lp.Aindex_ el with
  | none => rw [h1] at h; simp at h
  | some row =>
    cases h2 : readAt lp.Avalue_ el with
    | none => rw [h1, h2] at h; simp at h
    | some a =>
      cases h3 : readAt sol k with
      | none => rw [h1, h2, h3] at h; simp at h
      | some xk =>
        rw [h1, h2, h3] at h
        exact addAt_length h

theorem columnLoop_preserves {σ : Type} (P : σ → Prop) (lp : HighsLp) (col : Int)
    (body : Int → σ → Option σ) (hP : ∀ i s s', P s → body i s = some s' → P s')
    {s s' : σ} (hs : P s) (h : columnLoop lp col body s = some s') : P s' := by
  unfold columnLoop at h
  cases h1 : readAt lp.Astart_ col with
  | none => rw [h1] at h; simp at h
  | some first =>
    cases h2 : checkInt (col + 1) with
    | none => rw [h1, h2] at h; simp at h
    | some next =>
      rw [h1, h2] at h
      simp only [Option.bind] at h
      cases h3 : readAt lp.Astart_ next with
      | none => rw [h3] at h; simp at h
      | some last =>
        rw [h3] at h
        exact forLoop_preserves P body hP _ _ _ _ hs h

/-- A pass of the slot loop of the forward direction does not resize the buffer. -/
theorem forwardSlot_length {lp : HighsLp} {bv : List Int} {x : List ℚ} {k : Int}
    {y y' : List ℚ} (h : forwardSlot lp bv x k y = some y') : y'.length = y.length := by
  unfold forwardSlot at h
  cases h1 : readAt bv k with
  | none => rw [h1] at h; simp at h
  | some var =>
    rw [h1] at h
    simp only [Option.bind] at h
    split_ifs at h with hneg
    · cases h2 : logicalRow var with
      | none => rw [h2] at h; simp at h
      | some row =>
        cases h3 : readAt x k with
        | none => rw [h2, h3] at h; simp at h
        | some xk =>
          rw [h2, h3] at h
          exact addAt_length h
    · exact columnLoop_preserves (fun s => s.length = y.length) lp var _
        (fun i s s' hs hb => (scatterEntry_length hb).trans hs) rfl h

/-- The column loop of a column index at or beyond `numCol_` reads `Astart_`
outside its bounds. -/
theorem columnLoop_eq_none {σ : Type} (lp : HighsLp) (col : Int)
    (h : (lp.Astart_.length : Int) ≤ col + 1) (body : Int → σ → Option σ) (s : σ) :
    columnLoop lp col body s = none := by
  unfold columnLoop
  cases h1 : readAt lp.Astart_ col with
  | none => rfl
  | some first =>
    simp only [Option.bind]
    unfold checkInt
    split_ifs
    · simp only []
      rw [readAt_eq_none h]
    · rfl

/-- A raw entry is out of range: a negative value below `-numRow_` or a
non-negative value at or beyond `numCol_`. -/
theorem outOfRange_of_not_inRange {lp : HighsLp} (h : WellFormed lp) {v : Int}
    (hv : ¬ ∃ b, decode v = some b ∧ b.InRange lp) :
    (v < 0 ∧ v < -lp.numRow_) ∨ (0 ≤ v ∧ lp.numCol_ ≤ v) := by
  have hr := h.numRow_int
  unfold isInt INT_MIN INT_MAX at hr
  by_cases hneg : v < 0
  · left
    refine ⟨hneg, ?_⟩
    by_contra hge
    apply hv
    have hmin : INT_MIN ≤ v := by unfold INT_MIN; omega
    refine ⟨_, decode_of_neg hmin hneg, ?_⟩
    show 0 ≤ -(1 + v) ∧ -(1 + v) < lp.numRow_
    omega
  · right
    have h0 : 0 ≤ v := not_lt.mp hneg
    refine ⟨h0, ?_⟩
    by_contra hlt
    apply hv
    exact ⟨_, decode_of_nonneg h0, h0, not_le.mp hlt⟩

/-- The pass of the forward slot loop at an out-of-range entry accesses an array
outside its bounds. -/
theorem forwardSlot_eq_none {lp : HighsLp} {bv : List Int} {x y : List ℚ} {k : Nat}
    (hA : (lp.Astart_.length : Int) = lp.numCol_ + 1) (hk : k < bv.length)
    (hv : (bv.getD k 0 < 0 ∧ bv.getD k 0 < -lp.numRow_) ∨
      (0 ≤ bv.getD k 0 ∧ lp.numCol_ ≤ bv.getD k 0))
    (hy : (y.length : Int) = lp.numRow_) : forwardSlot lp bv x k y = none := by
  unfold forwardSlot
  rw [readAt_of_lt hk 0]
  simp only [Option.bind]
  rcases hv with ⟨hneg, hlow⟩ | ⟨h0, hhigh⟩
  · rw [if_pos hneg]
    cases h2 : logicalRow (bv.getD k 0) with
    | none => rfl
    | some row =>
      have := logicalRow_some h2
      cases h3 : readAt x k with
      | none => rfl
      | some xk => exact addAt_eq_none _ (by omega)
  · rw [if_neg (not_lt.mpr h0)]
    exact columnLoop_eq_none lp _ (by omega) _ _

/-- The pass of the transpose slot loop of `GetBasisSolvesFormRHS` at an
out-of-range entry accesses an array outside its bounds. -/
theorem transposeSlot_eq_none {lp : HighsLp} {bv : List Int} {x y : List ℚ} {k : Nat}
    (hA : (lp.Astart_.length : Int) = lp.numCol_ + 1) (hk : k < bv.length)
    (hv : (bv.getD k 0 < 0 ∧ bv.getD k 0 < -lp.numRow_) ∨
      (0 ≤ bv.getD k 0 ∧ lp.numCol_ ≤ bv.getD k 0))
    (hx : (x.length : Int) = lp.numRow_) : transposeSlot lp bv x k y = none := by
  unfold transposeSlot
  cases h0 : writeAt y (k : Int) 0 with
  | none => rfl
  | some y1 =>
    simp only [Option.bind]
    rw [readAt_of_lt hk 0]
    simp only []
    rcases hv with ⟨hneg, hlow⟩ | ⟨h0, hhigh⟩
    · rw [if_pos hneg]
      cases h2 : logicalRow (bv.getD k 0) with
      | none => rfl
      | some row =>
        have := logicalRow_some h2
        simp only []
        rw [readAt_eq_none (show (x.length : Int) ≤ row by omega)]
    · rw [if_neg (not_lt.mpr h0)]
      exact columnLoop_eq_none lp _ (by omega) _ _

/-- The pass of the transpose slot loop of `GetBasisSolvesCheckSolution` at an
out-of-range entry accesses an array outside its bounds. -/
theorem transposeResidual_eq_none {lp : HighsLp} {bv : List Int} {rhs x : List ℚ} {k : Nat}
    (acc : ℚ) (hA : (lp.Astart_.length : Int) = lp.numCol_ + 1) (hk : k < bv.length)
    (hv : (bv.getD k 0 < 0 ∧ bv.getD k 0 < -lp.numRow_) ∨
      (0 ≤ bv.getD k 0 ∧ lp.numCol_ ≤ bv.getD k 0))
    (hx : (x.length : Int) = lp.numRow_) : transposeResidual lp bv rhs x k acc = none := by
  unfold transposeResidual
  rw [readAt_of_lt hk 0]
  simp only [Option.bind]
  rcases hv with ⟨hneg, hlow⟩ | ⟨h0, hhigh⟩
  · rw [if_pos hneg]
    cases h2 : logicalRow (bv.getD k 0) with
    | none => rfl
    | some row =>
      have := logicalRow_some h2
      simp only []
      cases h3 : readAt rhs k with
      | none => rfl
      | some b =>
        simp only []
        rw [readAt_eq_none (show (x.length : Int) ≤ row by omega)]
  · rw [if_neg (not_lt.mpr h0), columnLoop_eq_none lp _ (by omega) _ _]

/-- With an out-of-range entry in the assignment neither function returns, in
either direction. -/
theorem outOfRange_eq_none {lp : HighsLp} (h : WellFormed lp) {bv : List Int}
    {x rhs : List ℚ} (hbl : (bv.length : Int) = lp.numRow_)
    (hx : (x.length : Int) = lp.numRow_) (hr : (rhs.length : Int) = lp.numRow_)
    (hbv : ¬ DecodesInRange lp bv) (t : Bool) :
    GetBasisSolvesFormRHS lp bv x rhs t = none ∧
    GetBasisSolvesCheckSolution lp bv rhs x t = none := by
  unfold DecodesInRange at hbv
  push_neg at hbv
  obtain ⟨v, hvmem, hv⟩ := hbv
  obtain ⟨k, hk, hkv⟩ := List.getElem_of_mem hvmem
  have hgetD : bv.getD k 0 = v := by rw [List.getD_eq_getElem _ _ hk]; exact hkv
  have hout := @outOfRange_of_not_inRange lp h v (by
    rintro ⟨b, hb, hin⟩
    exact hv b hb hin)
  rw [← hgetD] at hout
  have hA := h.Astart_length
  have hkn : k < lp.numRow_.toNat := by omega
  cases t with
  | true =>
    constructor
    · unfold GetBasisSolvesFormRHS forRange
      simp only [if_true, sub_zero]
      exact forLoop_eq_none (fun _ => True) _ (fun _ _ _ _ _ => trivial) k
        (fun s _ => transposeSlot_eq_none hA hk hout hx) _ 0 rhs (by omega) (by omega) trivial
    · unfold GetBasisSolvesCheckSolution forRange
      simp only [if_true, sub_zero]
      exact forLoop_eq_none (fun _ => True) _ (fun _ _ _ _ _ => trivial) k
        (fun s _ => transposeResidual_eq_none s hA hk hout hx) _ 0 0 (by omega) (by omega)
        trivial
  | false =>
    have hloop : ∀ y : List ℚ, (y.length : Int) = lp.numRow_ →
        forLoop (forwardSlot lp bv x) lp.numRow_.toNat 0 y = none := by
      intro y hy
      exact forLoop_eq_none (fun s : List ℚ => (s.length : Int) = lp.numRow_) _
        (fun i s s' hs hb => by
          show (s'.length : Int) = lp.numRow_
          rw [forwardSlot_length hb]; exact hs) k
        (fun s hs => forwardSlot_eq_none hA hk hout hs) _ 0 y (by omega) (by omega) hy
    constructor
    · unfold GetBasisSolvesFormRHS forRange
      simp only [Bool.false_eq_true, if_false, sub_zero]
      cases hz : forLoop (fun k rhs => writeAt rhs k 0) lp.numRow_.toNat 0 rhs with
      | none => rfl
      | some z =>
        have hzlen : z.length = rhs.length :=
          forLoop_preserves (fun s : List ℚ => s.length = rhs.length) _
            (fun i s s' hs hb => (writeAt_length hb).trans hs) _ _ _ _ rfl hz
        exact hloop z (by omega)
    · unfold GetBasisSolvesCheckSolution forRange vectorAssign
      simp only [Bool.false_eq_true, if_false, sub_zero]
      rw [if_pos (show 0 ≤ lp.numRow_ by omega)]
      simp only [Option.bind]
      rw [hloop _ (by simp; omega)]

/-! ## The forward image of a unit vector -/

theorem unitVec_length (n : Nat) (j : Int) : (unitVec n j).length = n := by
  simp [unitVec]

theorem unitVec_getD (n : Nat) (j : Int) (i : Nat) (hi : i < n) :
    (unitVec n j).getD i 0 = if (i : Int) = j then 1 else 0 := by
  unfold unitVec
  rw [List.getD_eq_getElem _ _ (by simpa using hi)]
  simp

theorem slotContribution_eq_zero {lp : HighsLp} {bv : List Int} {x : List ℚ} {k : Nat}
    (h : x.getD k 0 = 0) (i : Nat) : slotContribution lp bv x k i = 0 := by
  unfold slotContribution
  rw [h]
  cases decode (bv.getD k 0) with
  | none => rfl
  | some b =>
    cases b with
    | Structural c => simp
    | Logical r => simp

/-- Row `i` of the forward image of `e_k` is the contribution of slot `k` alone. -/
theorem forwardImage_unitVec (lp : HighsLp) (bv : List Int) (k i : Nat)
    (hk : k < lp.numRow_.toNat) :
    forwardImage lp bv (unitVec lp.numRow_.toNat k) i
      = slotContribution lp bv (unitVec lp.numRow_.toNat k) k i := by
  rw [forwardImage_eq_sum]
  apply Finset.sum_eq_single k
  · intro j hj hne
    apply slotContribution_eq_zero
    rw [unitVec_getD _ _ _ (Finset.mem_range.mp hj), if_neg]
    omega
  · intro hnot
    exact absurd (Finset.mem_range.mpr hk) hnot

theorem list_eq_of_getD {xs ys : List ℚ} (hlen : xs.length = ys.length)
    (h : ∀ i, i < xs.length → xs.getD i 0 = ys.getD i 0) : xs = ys := by
  apply List.ext_getElem hlen
  intro i h1 h2
  have := h i h1
  rwa [List.getD_eq_getElem _ _ h1, List.getD_eq_getElem _ _ h2] at this

/-- On a window of entries with pairwise different row indices, and a buffer
that is zero in those rows, storing each value is the same as adding it. -/
theorem forLoop_storeEntry_eq (lp : HighsLp) (x : List ℚ) (k : Nat) (hk : k < x.length)
    (hx : x.getD k 0 = 1) (hrng : ∀ r ∈ lp.Aindex_, 0 ≤ r) :
    ∀ (m lo : Nat) (y : List ℚ), lo + m ≤ lp.Aindex_.length → lo + m ≤ lp.Avalue_.length →
      (∀ j j', j < m → j' < m →
        lp.Aindex_.getD (lo + j) 0 = lp.Aindex_.getD (lo + j') 0 → j = j') →
      (∀ j, j < m → y.getD (lp.Aindex_.getD (lo + j) 0).toNat 0 = 0) →
      forLoop (storeEntry lp) m lo y = forLoop (scatterEntry lp x k) m lo y := by
  intro m
  induction m with
  | zero =>
    intro lo y _ _ _ _
    rfl
  | succ m ih =>
    intro lo y h1 h2 hinj hzero
    have hlo1 : lo < lp.Aindex_.length := by omega
    have hlo2 : lo < lp.Avalue_.length := by omega
    have hr0 := hrng _ (getD_mem hlo1 0)
    rw [forLoop_succ, forLoop_succ]
    have hz0 := hzero 0 (by omega)
    rw [Nat.add_zero] at hz0
    by_cases hin : (lp.Aindex_.getD lo 0).toNat < y.length
    · have hstore : storeEntry lp lo y
          = some (y.set (lp.Aindex_.getD lo 0).toNat (lp.Avalue_.getD lo 0)) := by
        unfold storeEntry
        rw [readAt_of_lt hlo1 0, readAt_of_lt hlo2 0]
        simp only [Option.bind, writeAt]
        rw [if_pos ⟨hr0, hin⟩]
      have hscatter : scatterEntry lp x k lo y
          = some (y.set (lp.Aindex_.getD lo 0).toNat (lp.Avalue_.getD lo 0)) := by
        unfold scatterEntry
        rw [readAt_of_lt hlo1 0, readAt_of_lt hlo2 0, readAt_of_lt hk 0]
        simp only [Option.bind]
        rw [addAt_of_range hr0 hin, hz0, hx]
        simp
      rw [hstore, hscatter]
      simp only [Option.bind]
      have hcast : ((lo : Int) + 1) = ((lo + 1 : Nat) : Int) := by push_cast; rfl
      rw [hcast]
      apply ih (lo + 1) _ (by omega) (by omega)
      · intro j j' hj hj' he
        have hidx : ∀ t, lo + 1 + t = lo + (t + 1) := by intro t; omega
        rw [hidx, hidx] at he
        have := hinj (j + 1) (j' + 1) (by omega) (by omega) he
        omega
      · intro j hj
        have hidx : lo + 1 + j = lo + (j + 1) := by omega
        have hne : lp.Aindex_.getD lo 0 ≠ lp.Aindex_.getD (lo + (j + 1)) 0 := by
          intro he
          have := hinj 0 (j + 1) (by omega) (by omega) (by rw [Nat.add_zero]; exact he)
          omega
        have hr1 := hrng _ (getD_mem (show lo + (j + 1) < lp.Aindex_.length by omega) 0)
        rw [hidx, getD_set_eq _ _ _ _ _ hin, if_neg (by omega)]
        exact hzero (j + 1) (by omega)
    · have hge : (y.length : Int) ≤ lp.Aindex_.getD lo 0 := by omega
      have hstore : storeEntry lp lo y = none := by
        unfold storeEntry
        rw [readAt_of_lt hlo1 0, readAt_of_lt hlo2 0]
        exact writeAt_eq_none _ hge
      have hscatter : scatterEntry lp x k lo y = none := by
        unfold scatterEntry
        rw [readAt_of_lt hlo1 0, readAt_of_lt hlo2 0, readAt_of_lt hk 0]
        exact addAt_eq_none _ hge
      rw [hstore, hscatter]
      rfl

/-- The forward image of `e_k` for a slot holding a logical variable is the unit
vector of its row; for a slot holding a structural variable whose column lists
no row twice it is the dense column the test builds. -/
theorem formRHS_unitVec {lp : HighsLp} (h : WellFormed lp) {bv : List Int}
    {rhs buf : List ℚ} (hbv : DecodesInRange lp bv) (hbl : bv.length = lp.numRow_.toNat)
    (hr : rhs.length = lp.numRow_.toNat) (hb : buf.length = lp.numRow_.toNat)
    (k : Nat) (hk : k < lp.numRow_.toNat) :
    (∀ r, decode (bv.getD k 0) = some (BasicVariable.Logical r) →
      GetBasisSolvesFormRHS lp bv (unitVec lp.numRow_.toNat k) rhs false
        = some (unitVec lp.numRow_.toNat r)) ∧
    (∀ c, decode (bv.getD k 0) = some (BasicVariable.Structural c) →
      (∀ el el', isEntryOf lp c el → isEntryOf lp c el' →
        lp.Aindex_.getD el 0 = lp.Aindex_.getD el' 0 → el = el') →
      ∃ y, GetBasisSolvesFormRHS lp bv (unitVec lp.numRow_.toNat k) rhs false = some y ∧
        expandColumn lp c buf = some y) := by
  have hxl : (unitVec lp.numRow_.toNat k).length = lp.numRow_.toNat := unitVec_length _ _
  have hxk : (unitVec lp.numRow_.toNat (k : Int)).getD k 0 = 1 := by
    rw [unitVec_getD _ _ _ hk, if_pos rfl]
  obtain ⟨y, hy, hylen, hyval⟩ := @formRHS_forward lp h bv (unitVec lp.numRow_.toNat k)
    rhs hbv hbl hxl (by omega)
  have hkb : k < bv.length := by omega
  constructor
  · intro r hd
    rw [hy]
    congr 1
    apply list_eq_of_getD (by rw [hylen, hr, unitVec_length])
    intro i hi
    have hi' : i < lp.numRow_.toNat := by omega
    rw [hyval i hi', forwardImage_unitVec lp bv k i hk, unitVec_getD _ _ _ hi']
    unfold slotContribution
    rw [hd]
    simp only [hxk]
    by_cases hri : r = (i : Int)
    · rw [if_pos hri, if_pos hri.symm]
    · rw [if_neg hri, if_neg (fun he => hri he.symm)]
  · intro c hd hinj
    refine ⟨y, hy, ?_⟩
    rcases decode_inRange_cases (hbv _ (getD_mem hkb 0)) with ⟨_, _, hd', _⟩ | ⟨h0, h1, hd'⟩
    · rw [hd'] at hd
      simp at hd
    · rw [hd'] at hd
      simp only [Option.some.injEq, BasicVariable.Structural.injEq] at hd
      subst hd
      obtain ⟨lo, m, hlo, hhi, hA, hV, _, _⟩ := h.column h0 h1
      obtain ⟨z, hz, hzlen, hzval⟩ := forLoop_zero lp.numRow_.toNat 0 buf (by omega)
      obtain ⟨w, hw, hwlen, hwval⟩ := forwardSlot_spec h hbv hbl hxl k hk z (by omega)
      have hfs : forwardSlot lp bv (unitVec lp.numRow_.toNat k) k z
          = forLoop (scatterEntry lp (unitVec lp.numRow_.toNat k) k) m lo z := by
        unfold forwardSlot
        rw [readAt_of_lt hkb 0]
        simp only [Option.bind]
        rw [if_neg (not_lt.mpr h0), columnLoop_eq_forLoop h h0 h1 _ _ lo m hlo hhi]
      have hstore := forLoop_storeEntry_eq lp (unitVec lp.numRow_.toNat k) k (by omega) hxk
        (fun r hr => (h.Aindex_range r hr).1) m lo z hA hV
        (by
          intro j j' hj hj' he
          have := hinj (lo + j) (lo + j') ((isEntryOf_iff hlo hhi _).mpr (by omega))
            ((isEntryOf_iff hlo hhi _).mpr (by omega)) he
          omega)
        (by
          intro j hj
          have hmem := h.Aindex_range _
            (getD_mem (show lo + j < lp.Aindex_.length by omega) 0)
          rw [hzval, if_pos (by omega)])
      have hew : expandColumn lp (bv.getD k 0) buf = some w := by
        unfold expandColumn forRange
        simp only [sub_zero]
        rw [show ((0 : Nat) : Int) = 0 from rfl] at hz
        rw [hz]
        simp only [Option.bind]
        rw [columnLoop_eq_forLoop h h0 h1 _ _ lo m hlo hhi, hstore, ← hfs]
        exact hw
      rw [hew]
      congr 1
      apply list_eq_of_getD (by omega)
      intro i hi
      have hi' : i < lp.numRow_.toNat := by omega
      rw [hwval i, hzval i, if_pos (by omega), zero_add, hyval i hi',
        forwardImage_unitVec lp bv k i hk]

/-! ## The identity basis -/

theorem IdentityBasis.decodesInRange {lp : HighsLp} {bv : List Int}
    (hid : IdentityBasis lp bv) (hbl : bv.length = lp.numRow_.toNat) :
    DecodesInRange lp bv := by
  intro v hv
  obtain ⟨k, hk, hkv⟩ := List.getElem_of_mem hv
  have hgetD : bv.getD k 0 = v := by rw [List.getD_eq_getElem _ _ hk]; exact hkv
  have hkn : (k : Int) < lp.numRow_ := by omega
  rcases hid k hkn with hd | ⟨c, hd, h0, h1, _⟩
  · exact ⟨_, hgetD ▸ hd,
      show BasicVariable.InRange lp (BasicVariable.Logical k) from ⟨by omega, hkn⟩⟩
  · exact ⟨_, hgetD ▸ hd,
      show BasicVariable.InRange lp (BasicVariable.Structural c) from ⟨h0, h1⟩⟩

theorem decode_structural {v c : Int} (h : decode v = some (BasicVariable.Structural c)) :
    v = c ∧ 0 ≤ v := by
  unfold decode at h
  split_ifs at h with hneg
  · cases hl : logicalRow v with
    | none => rw [hl] at h; simp at h
    | some r => rw [hl] at h; simp at h
  · simp only [Option.some.injEq, BasicVariable.Structural.injEq] at h
    exact ⟨h, not_lt.mp hneg⟩

/-- For an identity basis slot `k` contributes `x[k]` to row `k` and nothing to
the other rows. -/
theorem IdentityBasis.slotContribution {lp : HighsLp} (h : WellFormed lp) {bv : List Int}
    (hid : IdentityBasis lp bv) (x : List ℚ) (k i : Nat) (hk : (k : Int) < lp.numRow_) :
    slotContribution lp bv x k i = if k = i then x.getD k 0 else 0 := by
  rcases hid k hk with hd | ⟨c, hd, h0, h1, el, hlo, hhi, hrow, hval⟩
  · unfold HiGHS.slotContribution
    rw [hd]
    simp only []
    by_cases hki : k = i
    · rw [if_pos hki, if_pos (by omega)]
    · rw [if_neg hki, if_neg (by omega)]
  · obtain ⟨lo, m, hlo', hhi', hA, _, _, _⟩ := h.column h0 h1
    have hel : lo = el := by omega
    have hm : m = 1 := by omega
    subst hel hm
    unfold HiGHS.slotContribution
    rw [hd]
    simp only []
    have hwin := sum_window lp.Aindex_.length lo 1 hA
      (fun el => if lp.Aindex_.getD el 0 = (i : Int)
        then lp.Avalue_.getD el 0 * x.getD k 0 else 0)
    simp only [Finset.sum_range_one, Nat.add_zero] at hwin
    have hsum : (∑ el ∈ Finset.range lp.Aindex_.length,
        if isEntryOf lp c el ∧ lp.Aindex_.getD el 0 = (i : Int)
        then lp.Avalue_.getD el 0 * x.getD k 0 else 0)
        = if lp.Aindex_.getD lo 0 = (i : Int)
          then lp.Avalue_.getD lo 0 * x.getD k 0 else 0 := by
      rw [← hwin]
      apply Finset.sum_congr rfl
      intro e _
      simp only [isEntryOf_iff hlo' hhi', ite_and]
    rw [hsum, hrow, hval, one_mul]
    by_cases hki : k = i
    · rw [if_pos hki, if_pos (by omega)]
    · rw [if_neg hki, if_neg (by omega)]

/-- For an identity basis slot `k` of the transpose image is `x[k]`. -/
theorem IdentityBasis.transposeImage {lp : HighsLp} (h : WellFormed lp) {bv : List Int}
    (hid : IdentityBasis lp bv) (x : List ℚ) (k : Nat) (hk : (k : Int) < lp.numRow_) :
    transposeImage lp bv x k = x.getD k 0 := by
  rcases hid k hk with hd | ⟨c, hd, h0, h1, el, hlo, hhi, hrow, hval⟩
  · unfold HiGHS.transposeImage
    rw [hd]
    simp
  · obtain ⟨lo, m, hlo', hhi', hA, _, _, _⟩ := h.column h0 h1
    have hel : lo = el := by omega
    have hm : m = 1 := by omega
    subst hel hm
    obtain ⟨hvc, _⟩ := decode_structural hd
    subst hvc
    rw [transposeImage_structural hd hlo' hhi' hA]
    simp only [Finset.sum_range_one, Nat.add_zero]
    rw [hrow, hval, one_mul]
    simp

/-- For an identity basis both directions of `GetBasisSolvesFormRHS` return their
input vector and both directions of `GetBasisSolvesCheckSolution` return 0 on
`rhs = solution`. -/
theorem identityBasis_spec {lp : HighsLp} (h : WellFormed lp) {bv : List Int}
    {x rhs : List ℚ} (hid : IdentityBasis lp bv) (hbl : (bv.length : Int) = lp.numRow_)
    (hx : (x.length : Int) = lp.numRow_) (hr : (rhs.length : Int) = lp.numRow_)
    (t : Bool) :
    GetBasisSolvesFormRHS lp bv x rhs t = some x ∧
    GetBasisSolvesCheckSolution lp bv x x t = some 0 := by
  have hbl' : bv.length = lp.numRow_.toNat := by omega
  have hx' : x.length = lp.numRow_.toNat := by omega
  have hr' : lp.numRow_.toNat ≤ rhs.length := by omega
  have hbv := hid.decodesInRange hbl'
  have hfw : ∀ i, i < lp.numRow_.toNat → forwardImage lp bv x i = x.getD i 0 := by
    intro i hi
    rw [forwardImage_eq_sum]
    rw [Finset.sum_congr rfl (fun k hk =>
      hid.slotContribution h x k i (by have := Finset.mem_range.mp hk; omega))]
    rw [Finset.sum_ite_eq' (Finset.range lp.numRow_.toNat) i (fun k => x.getD k 0)]
    rw [if_pos (Finset.mem_range.mpr hi)]
  cases t with
  | false =>
    obtain ⟨y, hy, hylen, hyval⟩ := formRHS_forward h hbv hbl' hx' hr'
    constructor
    · rw [hy]
      congr 1
      apply list_eq_of_getD (by omega)
      intro i hi
      rw [hyval i (by omega), hfw i (by omega)]
    · rw [checkSolution_forward h hbv hbl' hx' (by omega) (by omega)]
      congr 1
      apply Finset.sum_eq_zero
      intro k hk
      rw [hfw k (Finset.mem_range.mp hk), sub_self, abs_zero]
  | true =>
    obtain ⟨y, hy, hylen, hyval⟩ := formRHS_transpose h hbv hbl' hx' hr'
    constructor
    · rw [hy]
      congr 1
      apply list_eq_of_getD (by omega)
      intro i hi
      rw [hyval i (by omega), hid.transposeImage h x i (by omega)]
    · rw [checkSolution_transpose h hbv hbl' hx' (by omega)]
      congr 1
      apply Finset.sum_eq_zero
      intro k hk
      rw [hid.transposeImage h x k (by have := Finset.mem_range.mp hk; omega), sub_self,
        abs_zero]

/-! ## Sign of the residual -/

theorem transposeResidual_nonneg {lp : HighsLp} {bv : List Int} {rhs x : List ℚ} {k : Int}
    {acc acc' : ℚ} (hacc : 0 ≤ acc) (h : transposeResidual lp bv rhs x k acc = some acc') :
    0 ≤ acc' := by
  unfold transposeResidual at h
  rw [Option.bind_eq_some] at h
  obtain ⟨var, _, h⟩ := h
  split_ifs at h with hneg
  · simp only [Option.bind_eq_some, Option.some.injEq] at h
    obtain ⟨row, _, b, _, xr, _, h⟩ := h
    rw [← h]
    exact add_nonneg hacc (abs_nonneg _)
  · simp only [Option.bind_eq_some, Option.some.injEq] at h
    obtain ⟨residual, _, b, _, h⟩ := h
    rw [← h]
    exact add_nonneg hacc (abs_nonneg _)

theorem forwardResidual_nonneg {rhs y : List ℚ} {k : Int} {acc acc' : ℚ} (hacc : 0 ≤ acc)
    (h : forwardResidual rhs y k acc = some acc') : 0 ≤ acc' := by
  unfold forwardResidual at h
  cases h1 : readAt rhs k with
  | none => rw [h1] at h; simp at h
  | some b =>
    cases h2 : readAt y k with
    | none => rw [h1, h2] at h; simp at h
    | some v =>
      rw [h1, h2] at h
      simp only [Option.bind, Option.some.injEq] at h
      rw [← h]
      exact add_nonneg hacc (abs_nonneg _)

/-- Whenever `GetBasisSolvesCheckSolution` returns, the residual is not negative. -/
theorem checkSolution_nonneg {lp : HighsLp} {bv : List Int} {rhs x : List ℚ} {t : Bool}
    {r : ℚ} (h : GetBasisSolvesCheckSolution lp bv rhs x t = some r) : 0 ≤ r := by
  unfold GetBasisSolvesCheckSolution at h
  cases t with
  | true =>
    simp only [if_true] at h
    exact forLoop_preserves (fun a : ℚ => 0 ≤ a) _
      (fun i s s' hs hb => transposeResidual_nonneg hs hb) _ _ _ _ (le_refl 0) h
  | false =>
    simp only [Bool.false_eq_true, if_false] at h
    cases h1 : vectorAssign lp.numRow_ 0 with
    | none => rw [h1] at h; simp at h
    | some z =>
      rw [h1] at h
      simp only [Option.bind] at h
      cases h2 : forRange 0 lp.numRow_ (forwardSlot lp bv x) z with
      | none => rw [h2] at h; simp at h
      | some y =>
        rw [h2] at h
        exact forLoop_preserves (fun a : ℚ => 0 ≤ a) _
          (fun i s s' hs hb => forwardResidual_nonneg hs hb) _ _ _ _ (le_refl 0) h

/-- With `numRow_ = 0` no loop of `GetBasisSolvesCheckSolution` runs and it
returns 0. -/
theorem checkSolution_numRow_zero {lp : HighsLp} (bv : List Int) (rhs x : List ℚ) (t : Bool)
    (h : lp.numRow_ = 0) : GetBasisSolvesCheckSolution lp bv rhs x t = some 0 := by
  unfold GetBasisSolvesCheckSolution forRange vectorAssign
  rw [h]
  cases t <;> simp [forLoop]

/-! ## Zero residual and the numeric form of the range condition -/

theorem sum_abs_sub_eq_zero_iff (n : Nat) (a b : Nat → ℚ) :
    (∑ k ∈ Finset.range n, abs (a k - b k)) = 0 ↔ ∀ k, k < n → a k = b k := by
  rw [Finset.sum_eq_zero_iff_of_nonneg (fun k _ => abs_nonneg _)]
  constructor
  · intro h k hk
    have := h k (Finset.mem_range.mpr hk)
    rwa [abs_eq_zero, sub_eq_zero] at this
  · intro h k hk
    rw [h k (Finset.mem_range.mp hk), sub_self, abs_zero]

/-- The residual against `rhs` is 0 exactly when `rhs` is the image, and the
residual against the image itself is 0. -/
theorem residual_zero_iff_image {lp : HighsLp} (h : WellFormed lp) {bv : List Int}
    {rhs x buffer : List ℚ} (hbv : DecodesInRange lp bv)
    (hbl : (bv.length : Int) = lp.numRow_) (hr : (rhs.length : Int) = lp.numRow_)
    (hx : (x.length : Int) = lp.numRow_) (hb : (buffer.length : Int) = lp.numRow_)
    (t : Bool) :
    ∃ y, GetBasisSolvesFormRHS lp bv x buffer t = some y ∧
      (GetBasisSolvesCheckSolution lp bv rhs x t = some 0 ↔ rhs = y) ∧
      GetBasisSolvesCheckSolution lp bv y x t = some 0 := by
  have hbl' : bv.length = lp.numRow_.toNat := by omega
  have hx' : x.length = lp.numRow_.toNat := by omega
  have hr' : lp.numRow_.toNat ≤ rhs.length := by omega
  have hb' : lp.numRow_.toNat ≤ buffer.length := by omega
  have key : ∀ (img : Nat → ℚ) (y : List ℚ), y.length = buffer.length →
      (∀ k, k < lp.numRow_.toNat → y.getD k 0 = img k) →
      (∀ b : List ℚ, lp.numRow_.toNat ≤ b.length →
        GetBasisSolvesCheckSolution lp bv b x t
          = some (∑ k ∈ Finset.range lp.numRow_.toNat, abs (b.getD k 0 - img k))) →
      (GetBasisSolvesCheckSolution lp bv rhs x t = some 0 ↔ rhs = y) ∧
      GetBasisSolvesCheckSolution lp bv y x t = some 0 := by
    intro img y hylen hyval hres
    constructor
    · rw [hres rhs hr', Option.some.injEq, sum_abs_sub_eq_zero_iff]
      constructor
      · intro hk
        apply list_eq_of_getD (by omega)
        intro i hi
        rw [hk i (by omega), hyval i (by omega)]
      · intro he k hk
        rw [he, hyval k hk]
    · rw [hres y (by omega), Option.some.injEq, sum_abs_sub_eq_zero_iff]
      intro k hk
      exact hyval k hk
  cases t with
  | false =>
    obtain ⟨y, hy, hylen, hyval⟩ := formRHS_forward h hbv hbl' hx' hb'
    exact ⟨y, hy, key (forwardImage lp bv x) y hylen hyval
      (fun b hbn => checkSolution_forward h hbv hbl' hx' hbn (by omega))⟩
  | true =>
    obtain ⟨y, hy, hylen, hyval⟩ := formRHS_transpose h hbv hbl' hx' hb'
    exact ⟨y, hy, key (transposeImage lp bv x) y hylen hyval
      (fun b hbn => checkSolution_transpose h hbv hbl' hx' hbn)⟩

/-- Raw entries `v` with `-numRow_ ≤ v < numCol_` decode in range. -/
theorem decodesInRange_of_bounds {lp : HighsLp} (h : WellFormed lp) {bv : List Int}
    (hb : ∀ v ∈ bv, -lp.numRow_ ≤ v ∧ v < lp.numCol_) : DecodesInRange lp bv := by
  intro v hv
  obtain ⟨h1, h2⟩ := hb v hv
  have hr := h.numRow_int
  unfold isInt INT_MIN INT_MAX at hr
  by_cases hneg : v < 0
  · have hmin : INT_MIN ≤ v := by unfold INT_MIN; omega
    exact ⟨_, decode_of_neg hmin hneg,
      show BasicVariable.InRange lp (BasicVariable.Logical (-(1 + v))) from
        ⟨by omega, by omega⟩⟩
  · have h0 : 0 ≤ v := not_lt.mp hneg
    exact ⟨_, decode_of_nonneg h0,
      show BasicVariable.InRange lp (BasicVariable.Structural v) from ⟨h0, h2⟩⟩

/-! ## The two images are adjoint -/

/-- Slot `k` of the transpose image of `y`, times `x[k]`, is the sum over the rows
of `y[i]` times what slot `k` adds to row `i` of the forward image of `x`. -/
theorem sum_mul_slotContribution {lp : HighsLp} (h : WellFormed lp) {bv : List Int}
    (hbv : DecodesInRange lp bv) (hbl : bv.length = lp.numRow_.toNat) (x y : List ℚ)
    (k : Nat) (hk : k < lp.numRow_.toNat) :
    ∑ i ∈ Finset.range lp.numRow_.toNat, y.getD i 0 * slotContribution lp bv x k i
      = transposeImage lp bv y k * x.getD k 0 := by
  have hkb : k < bv.length := by omega
  rcases decode_inRange_cases (hbv _ (getD_mem hkb 0)) with ⟨hneg, _, hd, hrow⟩ | ⟨h0, h1, hd⟩
  · unfold slotContribution transposeImage
    rw [hd]
    simp only []
    have hr : (-(1 + bv.getD k 0)).toNat < lp.numRow_.toNat := by omega
    rw [Finset.sum_eq_single (-(1 + bv.getD k 0)).toNat]
    · rw [if_pos (by omega)]
    · intro i _ hne
      rw [if_neg (by omega), mul_zero]
    · intro hnot
      exact absurd (Finset.mem_range.mpr hr) hnot
  · unfold slotContribution transposeImage
    rw [hd]
    simp only []
    rw [Finset.sum_mul]
    simp only [Finset.mul_sum]
    rw [Finset.sum_comm]
    apply Finset.sum_congr rfl
    intro el hel
    have hel' : el < lp.Aindex_.length := Finset.mem_range.mp hel
    have hrng := h.Aindex_range _ (getD_mem hel' 0)
    have hr : (lp.Aindex_.getD el 0).toNat < lp.numRow_.toNat := by omega
    by_cases hent : isEntryOf lp (bv.getD k 0) el
    · rw [if_pos hent, Finset.sum_eq_single (lp.Aindex_.getD el 0).toNat]
      · rw [if_pos ⟨hent, by omega⟩]
        ring
      · intro i _ hne
        rw [if_neg (by intro hc; apply hne; omega), mul_zero]
      · intro hnot
        exact absurd (Finset.mem_range.mpr hr) hnot
    · rw [if_neg hent, zero_mul]
      apply Finset.sum_eq_zero
      intro i _
      rw [if_neg (fun hc => hent hc.1), mul_zero]

/-- The forward image of `x` paired with `y` equals the transpose image of `y`
paired with `x`. -/
theorem sum_mul_forwardImage {lp : HighsLp} (h : WellFormed lp) {bv : List Int}
    (hbv : DecodesInRange lp bv) (hbl : bv.length = lp.numRow_.toNat) (x y : List ℚ) :
    ∑ i ∈ Finset.range lp.numRow_.toNat, y.getD i 0 * forwardImage lp bv x i
      = ∑ k ∈ Finset.range lp.numRow_.toNat, transposeImage lp bv y k * x.getD k 0 := by
  simp only [forwardImage_eq_sum, Finset.mul_sum]
  rw [Finset.sum_comm]
  apply Finset.sum_congr rfl
  intro k hk
  rw [← sum_mul_slotContribution h hbv hbl x y k (Finset.mem_range.mp hk)]

theorem repeatedEntryLp_wellFormed : WellFormed repeatedEntryLp where
  numRow_int := by decide
  numCol_int := by decide
  Astart_length := by decide
  Astart_sorted := by decide
  Astart_first := by simp [repeatedEntryLp]
  Astart_last := by simp [repeatedEntryLp]
  Aindex_range := by simp [repeatedEntryLp]

/-- The assignment `[0, 0]` puts the structural variable 0 in both slots. -/
theorem repeatedEntryLp_decodesInRange : DecodesInRange repeatedEntryLp [0, 0] := by
  intro v hv
  simp only [List.mem_cons, List.mem_singleton, List.not_mem_nil, or_false, or_self] at hv
  subst hv
  exact ⟨_, decode_of_nonneg (le_refl 0),
    show BasicVariable.InRange repeatedEntryLp (BasicVariable.Structural 0) from
      ⟨by decide, by decide⟩⟩

/-! ## Two runs on buffers with different contents -/

/-- A loop whose passes carry a relation between two runs carries it to the end. -/
theorem forLoop_sim {σ : Type} (R : σ → σ → Prop) (body : Int → σ → Option σ)
    (hstep : ∀ i s1 s2 s1', R s1 s2 → body i s1 = some s1' →
      ∃ s2', body i s2 = some s2' ∧ R s1' s2') :
    ∀ (m : Nat) (i : Int) (s1 s2 s1' : σ), R s1 s2 → forLoop body m i s1 = some s1' →
      ∃ s2', forLoop body m i s2 = some s2' ∧ R s1' s2' := by
  intro m
  induction m with
  | zero =>
    intro i s1 s2 s1' hR h
    simp only [forLoop, Option.some.injEq] at h
    exact ⟨s2, rfl, h ▸ hR⟩
  | succ m ih =>
    intro i s1 s2 s1' hR h
    rw [forLoop_succ, Option.bind_eq_some] at h
    obtain ⟨t1, ht1, h⟩ := h
    obtain ⟨t2, ht2, hR'⟩ := hstep i s1 s2 t1 hR ht1
    obtain ⟨s2', hs2', hR''⟩ := ih (i + 1) t1 t2 s1' hR' h
    exact ⟨s2', by rw [forLoop_succ, ht2]; exact hs2', hR''⟩

/-- The same with a relation that depends on the value of the counter. -/
theorem forLoop_sim_counter {σ : Type} (R : Nat → σ → σ → Prop)
    (body : Int → σ → Option σ)
    (hstep : ∀ (j : Nat) s1 s2 s1', R j s1 s2 → body j s1 = some s1' →
      ∃ s2', body j s2 = some s2' ∧ R (j + 1) s1' s2') :
    ∀ (m lo : Nat) (s1 s2 s1' : σ), R lo s1 s2 → forLoop body m lo s1 = some s1' →
      ∃ s2', forLoop body m lo s2 = some s2' ∧ R (lo + m) s1' s2' := by
  intro m
  induction m with
  | zero =>
    intro lo s1 s2 s1' hR h
    simp only [forLoop, Option.some.injEq] at h
    exact ⟨s2, rfl, h ▸ hR⟩
  | succ m ih =>
    intro lo s1 s2 s1' hR h
    rw [forLoop_succ, Option.bind_eq_some] at h
    obtain ⟨t1, ht1, h⟩ := h
    obtain ⟨t2, ht2, hR'⟩ := hstep lo s1 s2 t1 hR ht1
    have hcast : ((lo : Int) + 1) = ((lo + 1 : Nat) : Int) := by push_cast; rfl
    rw [hcast] at h
    obtain ⟨s2', hs2', hR''⟩ := ih (lo + 1) t1 t2 s1' hR' h
    refine ⟨s2', ?_, ?_⟩
    · rw [forLoop_succ, ht2, hcast]
      exact hs2'
    · rw [show lo + (m + 1) = lo + 1 + m by omega]
      exact hR''

theorem columnLoop_sim {σ : Type} (R : σ → σ → Prop) (lp : HighsLp) (col : Int)
    (body : Int → σ → Option σ)
    (hstep : ∀ i s1 s2 s1', R s1 s2 → body i s1 = some s1' →
      ∃ s2', body i s2 = some s2' ∧ R s1' s2')
    {s1 s2 s1' : σ} (hR : R s1 s2) (h : columnLoop lp col body s1 = some s1') :
    ∃ s2', columnLoop lp col body s2 = some s2' ∧ R s1' s2' := by
  unfold columnLoop at h ⊢
  simp only [Option.bind_eq_some] at h
  obtain ⟨first, h1, next, h2, last, h3, h⟩ := h
  obtain ⟨s2', hs2', hR'⟩ := forLoop_sim R body hstep _ _ s1 s2 s1' hR h
  refine ⟨s2', ?_, hR'⟩
  rw [h1, h2]
  simp only [Option.bind]
  rw [h3]
  exact hs2'

theorem writeAt_eq_some {xs ys : List ℚ} {i : Int} {v : ℚ} (h : writeAt xs i v = some ys) :
    0 ≤ i ∧ i.toNat < xs.length ∧ ys = xs.set i.toNat v := by
  unfold writeAt at h
  split_ifs at h with hc
  simp only [Option.some.injEq] at h
  exact ⟨hc.1, hc.2, h.symm⟩

theorem addAt_eq_some {xs ys : List ℚ} {i : Int} {v : ℚ} (h : addAt xs i v = some ys) :
    0 ≤ i ∧ i.toNat < xs.length ∧ ys = xs.set i.toNat (xs.getD i.toNat 0 + v) := by
  unfold addAt at h
  rw [Option.bind_eq_some] at h
  obtain ⟨old, hold, h⟩ := h
  obtain ⟨h0, h1, hy⟩ := writeAt_eq_some h
  rw [readAt_of_range h0 h1 0, Option.some.injEq] at hold
  exact ⟨h0, h1, by rw [hy, hold]⟩

theorem writeAt_of_range {xs : List ℚ} {z : Int} (h0 : 0 ≤ z) (h1 : z.toNat < xs.length)
    (v : ℚ) : writeAt xs z v = some (xs.set z.toNat v) := by
  unfold writeAt
  rw [if_pos ⟨h0, h1⟩]

/-- Storing the same value at the same place keeps two buffers in agreement. -/
theorem writeAt_sim (b : Nat) {s1 s2 s1' : List ℚ} {i : Int} {v : ℚ}
    (hR : AgreeBelow b s1 s2) (h : writeAt s1 i v = some s1') :
    ∃ s2', writeAt s2 i v = some s2' ∧ AgreeBelow b s1' s2' := by
  obtain ⟨h0, h1, hy⟩ := writeAt_eq_some h
  have h2 : i.toNat < s2.length := by rw [← hR.1]; exact h1
  refine ⟨_, writeAt_of_range h0 h2 v, ?_, ?_⟩
  · rw [hy]; simp [hR.1]
  · intro j hj
    rw [hy, getD_set_eq _ _ _ _ _ h1, getD_set_eq _ _ _ _ _ h2, hR.2 j hj]

/-- Storing at place `k` extends the agreement of the first `k` entries to the
first `k+1`. -/
theorem writeAt_sim_succ (k : Nat) {s1 s2 s1' : List ℚ} {v : ℚ}
    (hR : AgreeBelow k s1 s2) (h : writeAt s1 (k : Int) v = some s1') :
    ∃ s2', writeAt s2 (k : Int) v = some s2' ∧ AgreeBelow (k + 1) s1' s2' := by
  obtain ⟨h0, h1, hy⟩ := writeAt_eq_some h
  rw [Int.toNat_ofNat] at h1 hy
  have h2 : k < s2.length := by rw [← hR.1]; exact h1
  refine ⟨_, writeAt_of_lt h2 v, ?_, ?_⟩
  · rw [hy]; simp [hR.1]
  · intro j hj
    rw [hy, getD_set_eq _ _ _ _ _ h1, getD_set_eq _ _ _ _ _ h2]
    by_cases hkj : k = j
    · rw [if_pos hkj, if_pos hkj]
    · rw [if_neg hkj, if_neg hkj]
      exact hR.2 j (by omega)

/-- Adding the same value at the same place keeps two buffers in agreement. -/
theorem addAt_sim (b : Nat) {s1 s2 s1' : List ℚ} {i : Int} {v : ℚ}
    (hR : AgreeBelow b s1 s2) (h : addAt s1 i v = some s1') :
    ∃ s2', addAt s2 i v = some s2' ∧ AgreeBelow b s1' s2' := by
  obtain ⟨h0, h1, hy⟩ := addAt_eq_some h
  have h2 : i.toNat < s2.length := by rw [← hR.1]; exact h1
  refine ⟨_, addAt_of_range h0 h2 v, ?_, ?_⟩
  · rw [hy]; simp [hR.1]
  · intro j hj
    rw [hy, getD_set_eq _ _ _ _ _ h1, getD_set_eq _ _ _ _ _ h2]
    by_cases hij : i.toNat = j
    · rw [if_pos hij, if_pos hij, hij, hR.2 j hj]
    · rw [if_neg hij, if_neg hij]
      exact hR.2 j hj

theorem scatterEntry_sim (b : Nat) {lp : HighsLp} {sol : List ℚ} {k el : Int}
    {s1 s2 s1' : List ℚ} (hR : AgreeBelow b s1 s2)
    (h : scatterEntry lp sol k el s1 = some s1') :
    ∃ s2', scatterEntry lp sol k el s2 = some s2' ∧ AgreeBelow b s1' s2' := by
  unfold scatterEntry at h ⊢
  simp only [Option.bind_eq_some] at h
  obtain ⟨row, h1, a, h2, xk, h3, h⟩ := h
  obtain ⟨s2', hs2', hR'⟩ := addAt_sim b hR h
  refine ⟨s2', ?_, hR'⟩
  rw [h1, h2, h3]
  exact hs2'

theorem gatherEntry_sim (b : Nat) {lp : HighsLp} {sol : List ℚ} {k el : Int}
    {s1 s2 s1' : List ℚ} (hR : AgreeBelow b s1 s2)
    (h : gatherEntry lp sol k el s1 = some s1') :
    ∃ s2', gatherEntry lp sol k el s2 = some s2' ∧ AgreeBelow b s1' s2' := by
  unfold gatherEntry at h ⊢
  simp only [Option.bind_eq_some] at h
  obtain ⟨row, h1, a, h2, x, h3, h⟩ := h
  obtain ⟨s2', hs2', hR'⟩ := addAt_sim b hR h
  refine ⟨s2', ?_, hR'⟩
  rw [h1, h2]
  simp only [Option.bind]
  rw [h3]
  exact hs2'

theorem forwardSlot_sim (b : Nat) {lp : HighsLp} {bv : List Int} {sol : List ℚ} {k : Int}
    {s1 s2 s1' : List ℚ} (hR : AgreeBelow b s1 s2)
    (h : forwardSlot lp bv sol k s1 = some s1') :
    ∃ s2', forwardSlot lp bv sol k s2 = some s2' ∧ AgreeBelow b s1' s2' := by
  unfold forwardSlot at h ⊢
  rw [Option.bind_eq_some] at h
  obtain ⟨var, h1, h⟩ := h
  rw [h1]
  simp only [Option.bind]
  split_ifs at h ⊢ with hneg
  · simp only [Option.bind_eq_some] at h
    obtain ⟨row, h2, xk, h3, h⟩ := h
    obtain ⟨s2', hs2', hR'⟩ := addAt_sim b hR h
    refine ⟨s2', ?_, hR'⟩
    rw [h2, h3]
    exact hs2'
  · exact columnLoop_sim (AgreeBelow b) lp var (scatterEntry lp sol k)
      (fun i t1 t2 t1' hT hb => scatterEntry_sim b hT hb) hR h

theorem transposeSlot_sim (k : Nat) {lp : HighsLp} {bv : List Int} {sol : List ℚ}
    {s1 s2 s1' : List ℚ} (hR : AgreeBelow k s1 s2)
    (h : transposeSlot lp bv sol k s1 = some s1') :
    ∃ s2', transposeSlot lp bv sol k s2 = some s2' ∧ AgreeBelow (k + 1) s1' s2' := by
  unfold transposeSlot at h ⊢
  rw [Option.bind_eq_some] at h
  obtain ⟨t1, h0, h⟩ := h
  obtain ⟨t2, ht2, hT⟩ := writeAt_sim_succ k hR h0
  rw [ht2]
  simp only [Option.bind]
  rw [Option.bind_eq_some] at h
  obtain ⟨var, h1, h⟩ := h
  rw [h1]
  simp only []
  split_ifs at h ⊢ with hneg
  · simp only [Option.bind_eq_some] at h
    obtain ⟨row, h2, x, h3, h⟩ := h
    obtain ⟨s2', hs2', hR'⟩ := writeAt_sim (k + 1) hT h
    refine ⟨s2', ?_, hR'⟩
    rw [h2]
    simp only [Option.bind]
    rw [h3]
    exact hs2'
  · exact columnLoop_sim (AgreeBelow (k + 1)) lp var (gatherEntry lp sol k)
      (fun i u1 u2 u1' hU hb => gatherEntry_sim (k + 1) hU hb) hT h

/-- Two calls of `GetBasisSolvesFormRHS` that differ only in the content of the
buffer `rhs`: when one returns, so does the other, and the buffers then agree in
their first `numRow_` entries. -/
theorem formRHS_sim (lp : HighsLp) (bv : List Int) (sol : List ℚ) (t : Bool)
    {rhs1 rhs2 y1 : List ℚ} (hlen : rhs1.length = rhs2.length)
    (h : GetBasisSolvesFormRHS lp bv sol rhs1 t = some y1) :
    ∃ y2, GetBasisSolvesFormRHS lp bv sol rhs2 t = some y2 ∧
      AgreeBelow lp.numRow_.toNat y1 y2 := by
  have hR0 : AgreeBelow 0 rhs1 rhs2 := ⟨hlen, fun i hi => absurd hi (Nat.not_lt_zero i)⟩
  unfold GetBasisSolvesFormRHS forRange at h ⊢
  cases t with
  | true =>
    simp only [if_true, sub_zero] at h ⊢
    have := forLoop_sim_counter AgreeBelow (transposeSlot lp bv sol)
      (fun j s1 s2 s1' hR hb => transposeSlot_sim j hR hb) lp.numRow_.toNat 0 rhs1 rhs2 y1 hR0 h
    simpa using this
  | false =>
    simp only [Bool.false_eq_true, if_false, sub_zero] at h ⊢
    rw [Option.bind_eq_some] at h
    obtain ⟨z1, hz1, h⟩ := h
    have hz := forLoop_sim_counter AgreeBelow (fun k rhs => writeAt rhs k 0)
      (fun j s1 s2 s1' hR hb => writeAt_sim_succ j hR hb) lp.numRow_.toNat 0 rhs1 rhs2 z1 hR0 hz1
    obtain ⟨z2, hz2, hZ⟩ := hz
    rw [Nat.zero_add] at hZ
    obtain ⟨y2, hy2, hY⟩ := forLoop_sim (AgreeBelow lp.numRow_.toNat) (forwardSlot lp bv sol)
      (fun i s1 s2 s1' hR hb => forwardSlot_sim _ hR hb) _ _ z1 z2 y1 hZ h
    refine ⟨y2, ?_, hY⟩
    rw [show ((0 : Nat) : Int) = 0 from rfl] at hz2
    rw [hz2]
    exact hy2

theorem AgreeBelow.take_eq {b : Nat} {s1 s2 : List ℚ} (h : AgreeBelow b s1 s2) :
    s1.take b = s2.take b := by
  apply List.ext_getElem
  · simp [h.1]
  · intro i h1 h2
    have hi : i < b := by
      rw [List.length_take] at h1
      omega
    have hi1 : i < s1.length := by
      rw [List.length_take] at h1
      omega
    have hi2 : i < s2.length := by rw [← h.1]; exact hi1
    have := h.2 i hi
    rw [List.getD_eq_getElem _ _ hi1, List.getD_eq_getElem _ _ hi2] at this
    rw [List.getElem_take, List.getElem_take]
    exact this

/-! ## The residual in binary64 arithmetic -/

/-- With exact arithmetic the embedding over a record of operations is the
embedding over the rationals. -/
theorem checkSolutionOf_exact (lp : HighsLp) (bv : List Int) (rhs sol : List ℚ) (t : Bool) :
    GetBasisSolvesCheckSolutionOf exactArithmetic lp.toOf bv rhs sol t
      = GetBasisSolvesCheckSolution lp bv rhs sol t := rfl

theorem pow2_nonneg (e : Int) : 0 ≤ pow2 e := by
  unfold pow2
  split_ifs
  · exact Nat.cast_nonneg _
  · exact div_nonneg zero_le_one (Nat.cast_nonneg _)

theorem roundMagnitude_nonneg {a r : ℚ} (h : roundMagnitude a = some r) : 0 ≤ r := by
  unfold roundMagnitude at h
  simp only [] at h
  split_ifs at h
  simp only [Option.some.injEq] at h
  rw [← h]
  exact mul_nonneg (Nat.cast_nonneg _) (pow2_nonneg _)

/-- Rounding a non-negative value gives `+inf` or a non-negative finite value. -/
theorem Double.round_nonneg {q : ℚ} (hq : 0 ≤ q) : (Double.round q).NonNegOrNaN := by
  unfold Double.round
  split_ifs with h0 hpos
  · exact Or.inr (le_refl (0 : ℚ))
  · cases hm : roundMagnitude q with
    | none => exact Or.inr trivial
    | some r => exact Or.inr (roundMagnitude_nonneg hm)
  · exact absurd (lt_of_le_of_ne hq (Ne.symm h0)) hpos

theorem Double.fabs_nonNegOrNaN (d : Double) : (Double.fabs d).NonNegOrNaN := by
  cases d with
  | finite q => exact Or.inr (abs_nonneg q)
  | posInf => exact Or.inr trivial
  | negInf => exact Or.inr trivial
  | nan => exact Or.inl rfl

/-- The sum of two values that are not negative is not negative. -/
theorem Double.add_nonNegOrNaN {a b : Double} (ha : a.NonNegOrNaN) (hb : b.NonNegOrNaN) :
    (Double.add a b).NonNegOrNaN := by
  cases a with
  | nan => cases b <;> exact Or.inl rfl
  | negInf =>
    rcases ha with ha | ha
    · cases ha
    · exact absurd ha (by intro h; exact h)
  | posInf =>
    cases b with
    | nan => exact Or.inl rfl
    | negInf =>
      rcases hb with hb | hb
      · cases hb
      · exact absurd hb (by intro h; exact h)
    | posInf => exact Or.inr trivial
    | finite y => exact Or.inr trivial
  | finite x =>
    cases b with
    | nan => exact Or.inl rfl
    | negInf =>
      rcases hb with hb | hb
      · cases hb
      · exact absurd hb (by intro h; exact h)
    | posInf => exact Or.inr trivial
    | finite y =>
      have hx : (0 : ℚ) ≤ x := by
        rcases ha with ha | ha
        · cases ha
        · exact ha
      have hy : (0 : ℚ) ≤ y := by
        rcases hb with hb | hb
        · cases hb
        · exact hb
      exact Double.round_nonneg (add_nonneg hx hy)

theorem transposeResidualOf_nonNegOrNaN {lp : HighsLpOf Double} {bv : List Int}
    {rhs x : List Double} {k : Int} {acc acc' : Double} (hacc : acc.NonNegOrNaN)
    (h : transposeResidualOf ieeeArithmetic lp bv rhs x k acc = some acc') :
    acc'.NonNegOrNaN := by
  unfold transposeResidualOf at h
  rw [Option.bind_eq_some] at h
  obtain ⟨var, _, h⟩ := h
  split_ifs at h with hneg
  · simp only [Option.bind_eq_some, Option.some.injEq] at h
    obtain ⟨row, _, b, _, xr, _, h⟩ := h
    rw [← h]
    exact Double.add_nonNegOrNaN hacc (Double.fabs_nonNegOrNaN _)
  · simp only [Option.bind_eq_some, Option.some.injEq] at h
    obtain ⟨residual, _, b, _, h⟩ := h
    rw [← h]
    exact Double.add_nonNegOrNaN hacc (Double.fabs_nonNegOrNaN _)

theorem forwardResidualOf_nonNegOrNaN {rhs y : List Double} {k : Int} {acc acc' : Double}
    (hacc : acc.NonNegOrNaN)
    (h : forwardResidualOf ieeeArithmetic rhs y k acc = some acc') : acc'.NonNegOrNaN := by
  unfold forwardResidualOf at h
  simp only [Option.bind_eq_some, Option.some.injEq] at h
  obtain ⟨b, _, v, _, h⟩ := h
  rw [← h]
  exact Double.add_nonNegOrNaN hacc (Double.fabs_nonNegOrNaN _)

/-- In binary64 arithmetic, whenever `GetBasisSolvesCheckSolution` returns, the
residual is NaN or not negative. -/
theorem checkSolutionOf_nonNegOrNaN {lp : HighsLpOf Double} {bv : List Int}
    {rhs x : List Double} {t : Bool} {r : Double}
    (h : GetBasisSolvesCheckSolutionOf ieeeArithmetic lp bv rhs x t = some r) :
    r.NonNegOrNaN := by
  have hzero : (ieeeArithmetic.zero).NonNegOrNaN := Or.inr (le_refl (0 : ℚ))
  unfold GetBasisSolvesCheckSolutionOf at h
  cases t with
  | true =>
    simp only [if_true] at h
    exact forLoop_preserves Double.NonNegOrNaN _
      (fun i s s' hs hb => transposeResidualOf_nonNegOrNaN hs hb) _ _ _ _ hzero h
  | false =>
    simp only [Bool.false_eq_true, if_false, Option.bind_eq_some] at h
    obtain ⟨z, _, y, _, h⟩ := h
    exact forLoop_preserves Double.NonNegOrNaN _
      (fun i s s' hs hb => forwardResidualOf_nonNegOrNaN hs hb) _ _ _ _ hzero h

/-- With `numRow_ = 0` no loop runs and the residual is the initial `0`. -/
theorem checkSolutionOf_numRow_zero {lp : HighsLpOf Double} (bv : List Int)
    (rhs x : List Double) (t : Bool) (h : lp.numRow_ = 0) :
    GetBasisSolvesCheckSolutionOf ieeeArithmetic lp bv rhs x t = some (Double.finite 0) := by
  unfold GetBasisSolvesCheckSolutionOf forRange vectorAssignOf
  rw [h]
  cases t <;> simp [forLoop, ieeeArithmetic]

/-! ## Concrete LPs -/

theorem exampleLp_wellFormed : WellFormed exampleLp where
  numRow_int := by decide
  numCol_int := by decide
  Astart_length := by decide
  Astart_sorted := by decide
  Astart_first := by simp [exampleLp]
  Astart_last := by simp [exampleLp]
  Aindex_range := by simp [exampleLp]

theorem exampleLp_decodesInRange : DecodesInRange exampleLp [0, -1] := by
  intro v hv
  simp only [List.mem_cons, List.mem_singleton, List.not_mem_nil, or_false] at hv
  rcases hv with rfl | rfl
  · exact ⟨_, decode_of_nonneg (le_refl 0), ⟨by decide, by decide⟩⟩
  · exact ⟨_, decode_of_neg (by decide) (by decide), ⟨by decide, by decide⟩⟩

theorem identityLp_wellFormed : WellFormed identityLp where
  numRow_int := by decide
  numCol_int := by decide
  Astart_length := by decide
  Astart_sorted := by decide
  Astart_first := by simp [identityLp]
  Astart_last := by simp [identityLp]
  Aindex_range := by simp [identityLp]

/-- The assignment `[-1, -1]` names the logical variable of row 0 twice, and both
entries decode in range. -/
theorem identityLp_duplicate_decodesInRange : DecodesInRange identityLp [-1, -1] := by
  intro v hv
  simp only [List.mem_cons, List.mem_singleton, List.not_mem_nil, or_false, or_self] at hv
  subst hv
  exact ⟨_, decode_of_neg (by decide) (by decide), ⟨by decide, by decide⟩⟩

theorem repeatedRowLp_wellFormed : WellFormed repeatedRowLp where
  numRow_int := by decide
  numCol_int := by decide
  Astart_length := by decide
  Astart_sorted := by decide
  Astart_first := by simp [repeatedRowLp]
  Astart_last := by simp [repeatedRowLp]
  Aindex_range := by simp [repeatedRowLp]

theorem repeatedRowLp_decodesInRange : DecodesInRange repeatedRowLp [0] := by
  intro v hv
  simp only [List.mem_singleton] at hv
  subst hv
  exact ⟨_, decode_of_nonneg (le_refl 0), ⟨by decide, by decide⟩⟩

theorem identityLp_logical_identityBasis : IdentityBasis identityLp [-1, -2] := by
  intro k hk
  have hk' : k = 0 ∨ k = 1 := by
    have : (k : Int) < 2 := hk
    omega
  rcases hk' with rfl | rfl
  · exact Or.inl (decode_of_neg (by decide) (by decide))
  · exact Or.inl (decode_of_neg (by decide) (by decide))

theorem identityLp_structural_identityBasis : IdentityBasis identityLp [0, 1] := by
  intro k hk
  have hk' : k = 0 ∨ k = 1 := by
    have : (k : Int) < 2 := hk
    omega
  rcases hk' with rfl | rfl
  · exact Or.inr ⟨0, decode_of_nonneg (le_refl 0), by decide, by decide, 0,
      by decide, by decide, by decide, by decide!⟩
  · exact Or.inr ⟨1, decode_of_nonneg (by decide), by decide, by decide, 1,
      by decide, by decide, by decide, by decide!⟩

theorem getElem?_of_getD {xs : List ℚ} {i : Nat} (h : i < xs.length) :
    xs[i]? = some (xs.getD i 0) := by
  rw [List.getElem?_eq_getElem h, List.getD_eq_getElem _ _ h]

/-! ## The claims -/

/-- C1: forward image. For a well-formed LP, an assignment of length `numRow_`
whose entries decode in range and a vector `x` of length `numRow_`, the call
`GetBasisSolvesFormRHS(lp, basic_variables, x, rhs, false)` returns and leaves in
every row `i` of `rhs` the sum of `x[k]` over the slots decoding to `Logical i`
plus the sum of `Avalue_[el]*x[k]` over the slots decoding to `Structural c` and
the entries `el` of column `c` with `Aindex_[el] = i`. -/
theorem GetBasisSolvesFormRHS_forward_image (lp : HighsLp) (basic_variables : List Int)
    (x rhs : List ℚ) (hlp : WellFormed lp) (hbv : DecodesInRange lp basic_variables)
    (hlen : (basic_variables.length : Int) = lp.numRow_)
    (hx : (x.length : Int) = lp.numRow_) (hrhs : lp.numRow_ ≤ (rhs.length : Int)) :
    ∃ y, GetBasisSolvesFormRHS lp basic_variables x rhs false = some y ∧
      y.length = rhs.length ∧
      ∀ i : Nat, (i : Int) < lp.numRow_ → y[i]? = some (forwardImage lp basic_variables x i) := by
  obtain ⟨y, hy, hylen, hyval⟩ :=
    formRHS_forward hlp hbv (by omega) (show x.length = lp.numRow_.toNat by omega)
      (show lp.numRow_.toNat ≤ rhs.length by omega)
  refine ⟨y, hy, hylen, ?_⟩
  intro i hi
  rw [getElem?_of_getD (by omega), hyval i (by omega)]

/-- C1 on `exampleLp` with the assignment `[Structural 0, Logical 0]`. -/
theorem GetBasisSolvesFormRHS_forward_image_witness :
    GetBasisSolvesFormRHS exampleLp [0, -1] [5, 7] [9, 9] false = some [17, 15] ∧
    ∃ y, GetBasisSolvesFormRHS exampleLp [0, -1] [5, 7] [9, 9] false = some y ∧
      y.length = [(9 : ℚ), 9].length ∧
      ∀ i : Nat, (i : Int) < exampleLp.numRow_ →
        y[i]? = some (forwardImage exampleLp [0, -1] [5, 7] i) :=
  ⟨by decide!, GetBasisSolvesFormRHS_forward_image exampleLp [0, -1] [5, 7] [9, 9]
    exampleLp_wellFormed exampleLp_decodesInRange (by decide) (by decide) (by decide)⟩

/-- C2: transpose image. Under the same preconditions the call
`GetBasisSolvesFormRHS(lp, basic_variables, x, rhs, true)` returns and leaves in
every slot `k` of `rhs` the value `x[r]` when slot `k` decodes to `Logical r` and
the sum of `Avalue_[el]*x[Aindex_[el]]` over the entries `el` of column `c` when it
decodes to `Structural c`. -/
theorem GetBasisSolvesFormRHS_transpose_image (lp : HighsLp) (basic_variables : List Int)
    (x rhs : List ℚ) (hlp : WellFormed lp) (hbv : DecodesInRange lp basic_variables)
    (hlen : (basic_variables.length : Int) = lp.numRow_)
    (hx : (x.length : Int) = lp.numRow_) (hrhs : lp.numRow_ ≤ (rhs.length : Int)) :
    ∃ y, GetBasisSolvesFormRHS lp basic_variables x rhs true = some y ∧
      y.length = rhs.length ∧
      ∀ k : Nat, (k : Int) < lp.numRow_ →
        y[k]? = some (transposeImage lp basic_variables x k) := by
  obtain ⟨y, hy, hylen, hyval⟩ :=
    formRHS_transpose hlp hbv (by omega) (show x.length = lp.numRow_.toNat by omega)
      (show lp.numRow_.toNat ≤ rhs.length by omega)
  refine ⟨y, hy, hylen, ?_⟩
  intro k hk
  rw [getElem?_of_getD (by omega), hyval k (by omega)]

/-- C2 on `exampleLp` with the assignment `[Structural 0, Logical 0]`. -/
theorem GetBasisSolvesFormRHS_transpose_image_witness :
    GetBasisSolvesFormRHS exampleLp [0, -1] [5, 7] [9, 9] true = some [31, 5] ∧
    ∃ y, GetBasisSolvesFormRHS exampleLp [0, -1] [5, 7] [9, 9] true = some y ∧
      y.length = [(9 : ℚ), 9].length ∧
      ∀ k : Nat, (k : Int) < exampleLp.numRow_ →
        y[k]? = some (transposeImage exampleLp [0, -1] [5, 7] k) :=
  ⟨by decide!, GetBasisSolvesFormRHS_transpose_image exampleLp [0, -1] [5, 7] [9, 9]
    exampleLp_wellFormed exampleLp_decodesInRange (by decide) (by decide) (by decide)⟩

/-- C3: the residual oracle is the L1 distance to the image. For a well-formed LP
and assignment, vectors `rhs` and `solution` of length `numRow_` and either value
of the transpose flag, `GetBasisSolvesFormRHS` on `solution` returns a vector `y`
(whatever the buffer held before) and `GetBasisSolvesCheckSolution` returns the
sum over `k < numRow_` of `|rhs[k] - y[k]|`. -/
theorem GetBasisSolvesCheckSolution_eq_l1Distance (lp : HighsLp)
    (basic_variables : List Int) (rhs solution buffer : List ℚ) (transpose : Bool)
    (hlp : WellFormed lp) (hbv : DecodesInRange lp basic_variables)
    (hlen : (basic_variables.length : Int) = lp.numRow_)
    (hrhs : (rhs.length : Int) = lp.numRow_) (hsol : (solution.length : Int) = lp.numRow_)
    (hbuf : lp.numRow_ ≤ (buffer.length : Int)) :
    ∃ y, GetBasisSolvesFormRHS lp basic_variables solution buffer transpose = some y ∧
      GetBasisSolvesCheckSolution lp basic_variables rhs solution transpose
        = some (l1Distance lp.numRow_.toNat rhs y) := by
  have hbl : basic_variables.length = lp.numRow_.toNat := by omega
  have hx : solution.length = lp.numRow_.toNat := by omega
  have hr : lp.numRow_.toNat ≤ rhs.length := by omega
  have hb : lp.numRow_.toNat ≤ buffer.length := by omega
  cases transpose with
  | false =>
    obtain ⟨y, hy, _, hyval⟩ := formRHS_forward hlp hbv hbl hx hb
    refine ⟨y, hy, ?_⟩
    rw [checkSolution_forward hlp hbv hbl hx hr (by omega)]
    unfold l1Distance
    congr 1
    apply Finset.sum_congr rfl
    intro k hk
    rw [hyval k (Finset.mem_range.mp hk)]
  | true =>
    obtain ⟨y, hy, _, hyval⟩ := formRHS_transpose hlp hbv hbl hx hb
    refine ⟨y, hy, ?_⟩
    rw [checkSolution_transpose hlp hbv hbl hx hr]
    unfold l1Distance
    congr 1
    apply Finset.sum_congr rfl
    intro k hk
    rw [hyval k (Finset.mem_range.mp hk)]

/-- C3 on `exampleLp`, forward direction: the image of `[5, 7]` is `[17, 15]` and
its L1 distance to `[20, 11]` is `7`. -/
theorem GetBasisSolvesCheckSolution_eq_l1Distance_witness :
    GetBasisSolvesCheckSolution exampleLp [0, -1] [20, 11] [5, 7] false = some 7 ∧
    GetBasisSolvesCheckSolution exampleLp [0, -1] [20, 11] [5, 7] true = some 17 ∧
    ∃ y, GetBasisSolvesFormRHS exampleLp [0, -1] [5, 7] [9, 9] false = some y ∧
      GetBasisSolvesCheckSolution exampleLp [0, -1] [20, 11] [5, 7] false
        = some (l1Distance exampleLp.numRow_.toNat [20, 11] y) :=
  ⟨by decide!, by decide!,
    GetBasisSolvesCheckSolution_eq_l1Distance exampleLp [0, -1] [20, 11] [5, 7] [9, 9] false
      exampleLp_wellFormed exampleLp_decodesInRange (by decide) (by decide) (by decide)
      (by decide)⟩

/-- C4: for every 32-bit raw value the decoding of the code succeeds without
signed overflow, gives a non-negative index (representable as an `int`), sends
`-1` to row 0 and `-2` to row 1, is injective on 32-bit values, and
re-encoding the decoded value gives the raw value back. -/
theorem decode_encode_bijection (v : Int) (hv : isInt v) :
    decode v = some (if v < 0 then BasicVariable.Logical (-(1 + v))
                      else BasicVariable.Structural v) ∧
    (∃ b, decode v = some b ∧ 0 ≤ b.index ∧ isInt b.index ∧ encode b = v) ∧
    decode (-1) = some (BasicVariable.Logical 0) ∧
    decode (-2) = some (BasicVariable.Logical 1) ∧
    (∀ w, isInt w → decode w = decode v → w = v) := by
  obtain ⟨hlo, hhi⟩ := hv
  have key : ∀ u, INT_MIN ≤ u → decode u = some (if u < 0 then BasicVariable.Logical (-(1 + u))
      else BasicVariable.Structural u) := by
    intro u hu
    by_cases h : u < 0
    · simp [h, decode_of_neg hu h]
    · simp [h, decode_of_nonneg (not_lt.mp h)]
  refine ⟨key v hlo, ?_, ?_, ?_, ?_⟩
  · by_cases h : v < 0
    · refine ⟨_, decode_of_neg hlo h, ?_, ⟨?_, ?_⟩, ?_⟩
      · show 0 ≤ -(1 + v); omega
      · show INT_MIN ≤ -(1 + v); unfold INT_MIN; omega
      · show -(1 + v) ≤ INT_MAX; unfold INT_MIN at hlo; unfold INT_MAX; omega
      · show -(1 + -(1 + v)) = v; omega
    · have h0 : 0 ≤ v := not_lt.mp h
      refine ⟨_, decode_of_nonneg h0, h0, ⟨?_, hhi⟩, rfl⟩
      show INT_MIN ≤ v; unfold INT_MIN; omega
  · exact decode_of_neg (by unfold INT_MIN; omega) (by omega)
  · exact decode_of_neg (by unfold INT_MIN; omega) (by omega)
  · intro w hw hEq
    rw [key v hlo, key w hw.1] at hEq
    by_cases h : v < 0 <;> by_cases h' : w < 0 <;> simp [h, h'] at hEq <;> omega

/-- C4 at the raw value `INT_MIN`. -/
theorem decode_encode_bijection_witness :
    isInt INT_MIN ∧
    (decode INT_MIN = some (if INT_MIN < 0 then BasicVariable.Logical (-(1 + INT_MIN))
                      else BasicVariable.Structural INT_MIN) ∧
    (∃ b, decode INT_MIN = some b ∧ 0 ≤ b.index ∧ isInt b.index ∧ encode b = INT_MIN) ∧
    decode (-1) = some (BasicVariable.Logical 0) ∧
    decode (-2) = some (BasicVariable.Logical 1) ∧
    (∀ w, isInt w → decode w = decode INT_MIN → w = INT_MIN)) :=
  ⟨by decide, decode_encode_bijection INT_MIN (by decide)⟩

/-- C5: state gating. On an object with no model loaded (`Unloaded`) and on one
with a model loaded but not yet solved (`Loaded`), each of the six queries returns
`HighsStatus::Error` whatever its arguments; a fresh object is `Unloaded`, a
successful load makes it `Loaded`, and after a successful `run()` of a loaded
model `getBasicVariables` returns `HighsStatus::OK`. -/
theorem query_state_gating (h : Highs) (row col : Int) (rhs : List ℚ)
    (hs : h.state = OperationalState.Unloaded ∨ h.state = OperationalState.Loaded) :
    (h.getBasicVariables.1 = HighsStatus.Error ∧
     (h.getBasisInverseRow row).1 = HighsStatus.Error ∧
     (h.getBasisInverseCol col).1 = HighsStatus.Error ∧
     (h.getBasisSolve rhs).1 = HighsStatus.Error ∧
     (h.getBasisTransposeSolve rhs).1 = HighsStatus.Error ∧
     (h.getReducedColumn col).1 = HighsStatus.Error) ∧
    Highs.fresh.state = OperationalState.Unloaded ∧
    (∀ lp, (h.initializeFromFile (some lp)).1 = HighsStatus.OK ∧
      (h.initializeFromFile (some lp)).2.state = OperationalState.Loaded) ∧
    (∀ outcome, h.state = OperationalState.Loaded →
      (h.run (some outcome)).1 = HighsStatus.OK ∧
      (h.run (some outcome)).2.state = OperationalState.Solved ∧
      (h.run (some outcome)).2.getBasicVariables.1 = HighsStatus.OK) := by
  refine ⟨?_, rfl, fun lp => ⟨rfl, rfl⟩, ?_⟩
  · rcases hs with hs | hs <;>
      simp [Highs.getBasicVariables, Highs.getBasisInverseRow, Highs.getBasisInverseCol,
        Highs.getBasisSolve, Highs.getBasisTransposeSolve, Highs.getReducedColumn,
        Highs.query, hs]
  · rintro ⟨basis, factor⟩ hl
    simp [Highs.run, hl, Highs.getBasicVariables]

/-- C5 on the object obtained by loading `exampleLp` into a fresh object, with
the arguments the test passes before `run()`, followed by a successful `run()`. -/
theorem query_state_gating_witness :
    (Highs.fresh.initializeFromFile (some exampleLp)).2.state = OperationalState.Loaded ∧
    ((Highs.fresh.initializeFromFile (some exampleLp)).2.getBasicVariables.1
        = HighsStatus.Error ∧
     ((Highs.fresh.initializeFromFile (some exampleLp)).2.getBasisInverseRow 0).1
        = HighsStatus.Error ∧
     ((Highs.fresh.initializeFromFile (some exampleLp)).2.getBasisInverseCol 0).1
        = HighsStatus.Error ∧
     ((Highs.fresh.initializeFromFile (some exampleLp)).2.getBasisSolve [1, 2]).1
        = HighsStatus.Error ∧
     ((Highs.fresh.initializeFromFile (some exampleLp)).2.getBasisTransposeSolve [1, 2]).1
        = HighsStatus.Error ∧
     ((Highs.fresh.initializeFromFile (some exampleLp)).2.getReducedColumn 0).1
        = HighsStatus.Error) ∧
    (((Highs.fresh.initializeFromFile (some exampleLp)).2.run
        (some ([0, -1], Highs.fresh.factor))).2.getBasicVariables.1 = HighsStatus.OK) :=
  ⟨rfl,
   (query_state_gating (Highs.fresh.initializeFromFile (some exampleLp)).2 0 0 [1, 2]
      (Or.inr rfl)).1,
   ((query_state_gating (Highs.fresh.initializeFromFile (some exampleLp)).2 0 0 [1, 2]
      (Or.inr rfl)).2.2.2 ([0, -1], Highs.fresh.factor) rfl).2.2⟩

/-- C7, counterexample: with `numRow_ = 2` the raw assignment `[-1, -1]`, whose
entries both encode `Logical 0`, is not rejected: both functions return, and the
sequence is used to form the images `[8, 0]` and `[3, 3]` of `[3, 5]` and the
residuals. -/
theorem duplicate_assignment_not_rejected :
    GetBasisSolvesFormRHS identityLp [-1, -1] [3, 5] [0, 0] false = some [8, 0] ∧
    GetBasisSolvesFormRHS identityLp [-1, -1] [3, 5] [0, 0] true = some [3, 3] ∧
    GetBasisSolvesCheckSolution identityLp [-1, -1] [8, 0] [3, 5] false = some 0 ∧
    GetBasisSolvesCheckSolution identityLp [-1, -1] [3, 3] [3, 5] true = some 0 := by
  decide!

/-- C7, amended: the helpers do not validate the assignment. For a well-formed
LP and buffers of length `numRow_`, an assignment whose entries all decode in
range is accepted and used to form an image and a residual, whether or not it
names a variable twice; an assignment with an out-of-range entry makes both
functions access an array outside its bounds, so that no image and no residual
is formed. -/
theorem assignment_used_iff_in_range (lp : HighsLp) (basic_variables : List Int)
    (x rhs : List ℚ) (transpose : Bool) (hlp : WellFormed lp)
    (hlen : (basic_variables.length : Int) = lp.numRow_)
    (hx : (x.length : Int) = lp.numRow_) (hrhs : (rhs.length : Int) = lp.numRow_) :
    (DecodesInRange lp basic_variables →
      ∃ y r, GetBasisSolvesFormRHS lp basic_variables x rhs transpose = some y ∧
        GetBasisSolvesCheckSolution lp basic_variables rhs x transpose = some r) ∧
    (¬ DecodesInRange lp basic_variables →
      GetBasisSolvesFormRHS lp basic_variables x rhs transpose = none ∧
      GetBasisSolvesCheckSolution lp basic_variables rhs x transpose = none) := by
  refine ⟨fun hbv => ?_, fun hbv => outOfRange_eq_none hlp hlen hx hrhs hbv transpose⟩
  have hbl : basic_variables.length = lp.numRow_.toNat := by omega
  have hx' : x.length = lp.numRow_.toNat := by omega
  have hr : lp.numRow_.toNat ≤ rhs.length := by omega
  cases transpose with
  | false =>
    obtain ⟨y, hy, _, _⟩ := formRHS_forward hlp hbv hbl hx' hr
    exact ⟨y, _, hy, checkSolution_forward hlp hbv hbl hx' hr (by omega)⟩
  | true =>
    obtain ⟨y, hy, _, _⟩ := formRHS_transpose hlp hbv hbl hx' hr
    exact ⟨y, _, hy, checkSolution_transpose hlp hbv hbl hx' hr⟩

/-- C7, amended, on the 2x2 identity LP with the duplicate assignment `[-1, -1]`. -/
theorem assignment_used_iff_in_range_witness :
    DecodesInRange identityLp [-1, -1] ∧
    ∃ y r, GetBasisSolvesFormRHS identityLp [-1, -1] [3, 5] [0, 0] false = some y ∧
      GetBasisSolvesCheckSolution identityLp [-1, -1] [0, 0] [3, 5] false = some r :=
  ⟨identityLp_duplicate_decodesInRange,
   (assignment_used_iff_in_range identityLp [-1, -1] [3, 5] [0, 0] false identityLp_wellFormed
      (by decide) (by decide) (by decide)).1 identityLp_duplicate_decodesInRange⟩

/-- C8, counterexample: on a well-formed LP whose column 0 lists row 0 twice
(values 1 and 2), with slot 0 holding `Structural 0`, the forward image of `e_0` is
`[3]` while the dense column the test builds is `[2]`. -/
theorem forward_image_unit_ne_dense_column :
    WellFormed repeatedRowLp ∧ DecodesInRange repeatedRowLp [0] ∧
    decode ([0].getD 0 0) = some (BasicVariable.Structural 0) ∧
    GetBasisSolvesFormRHS repeatedRowLp [0] (unitVec 1 0) [0] false = some [3] ∧
    expandColumn repeatedRowLp 0 [0] = some [2] :=
  ⟨repeatedRowLp_wellFormed, repeatedRowLp_decodesInRange, by decide, by decide!, by decide!⟩

/-- C8, amended: for a well-formed LP and assignment and a slot `k < numRow_`,
the forward image of the unit vector `e_k` is the unit vector `e_r` when slot `k`
decodes to `Logical r`, and, when slot `k` decodes to `Structural c` and column
`c` lists no row index twice, it is column `c` expanded to dense row space as the
test builds it. -/
theorem forward_image_of_unit_vector (lp : HighsLp) (basic_variables : List Int)
    (rhs buffer : List ℚ) (k : Nat) (hlp : WellFormed lp)
    (hbv : DecodesInRange lp basic_variables)
    (hlen : (basic_variables.length : Int) = lp.numRow_) (hk : (k : Int) < lp.numRow_)
    (hrhs : (rhs.length : Int) = lp.numRow_) (hbuf : (buffer.length : Int) = lp.numRow_) :
    (∀ r, decode (basic_variables.getD k 0) = some (BasicVariable.Logical r) →
      GetBasisSolvesFormRHS lp basic_variables (unitVec lp.numRow_.toNat k) rhs false
        = some (unitVec lp.numRow_.toNat r)) ∧
    (∀ c, decode (basic_variables.getD k 0) = some (BasicVariable.Structural c) →
      (∀ el el', isEntryOf lp c el → isEntryOf lp c el' →
        lp.Aindex_.getD el 0 = lp.Aindex_.getD el' 0 → el = el') →
      ∃ y, GetBasisSolvesFormRHS lp basic_variables (unitVec lp.numRow_.toNat k) rhs false
          = some y ∧
        expandColumn lp c buffer = some y) :=
  formRHS_unitVec hlp hbv (by omega) (by omega) (by omega) k (by omega)

/-- C8, amended, on `exampleLp` with the assignment `[Structural 0, Logical 0]`:
the image of `e_0` is column 0, `[2, 3]`, and the image of `e_1` is `e_0`. -/
theorem forward_image_of_unit_vector_witness :
    GetBasisSolvesFormRHS exampleLp [0, -1] (unitVec 2 1) [9, 9] false
      = some (unitVec 2 0) ∧
    GetBasisSolvesFormRHS exampleLp [0, -1] (unitVec 2 0) [9, 9] false = some [2, 3] ∧
    ∃ y, GetBasisSolvesFormRHS exampleLp [0, -1] (unitVec 2 0) [9, 9] false = some y ∧
      expandColumn exampleLp 0 [7, 7] = some y :=
  ⟨(forward_image_of_unit_vector exampleLp [0, -1] [9, 9] [7, 7] 1 exampleLp_wellFormed
      exampleLp_decodesInRange (by decide) (by decide) (by decide) (by decide)).1 0
      (by decide),
   by decide!,
   (forward_image_of_unit_vector exampleLp [0, -1] [9, 9] [7, 7] 0 exampleLp_wellFormed
      exampleLp_decodesInRange (by decide) (by decide) (by decide) (by decide)).2 0
      (by decide) (by
        intro el el' h1 h2 _
        have h1' : (0 : Int) ≤ el ∧ (el : Int) < 2 := h1
        have h2' : (0 : Int) ≤ el' ∧ (el' : Int) < 2 := h2
        have he : el = 0 ∨ el = 1 := by omega
        have he' : el' = 0 ∨ el' = 1 := by omega
        rcases he with rfl | rfl <;> rcases he' with rfl | rfl <;> simp_all [exampleLp])⟩

/-- C9: identity-basis scenario. For a well-formed LP whose basis matrix is the
identity (every slot `k` decodes to `Logical k`, or to `Structural c` with column
`c` holding the single entry `(row k, value 1)`) and vectors of length `numRow_`,
`GetBasisSolvesFormRHS` returns its input vector unchanged and
`GetBasisSolvesCheckSolution(rhs = x, solution = x)` is 0, in both directions; on
the 2x2 identity matrix with the raw assignment `[-1, -2]` the residual of
`([3,5],[3,5])`, `([1,0],[1,0])` and `([0,1],[0,1])` is 0, and with the raw
assignment `[0, 1]` the transpose residual of `([2,7],[2,7])` is 0. -/
theorem identity_basis_scenario (lp : HighsLp) (basic_variables : List Int)
    (x rhs : List ℚ) (transpose : Bool) (hlp : WellFormed lp)
    (hid : IdentityBasis lp basic_variables)
    (hlen : (basic_variables.length : Int) = lp.numRow_)
    (hx : (x.length : Int) = lp.numRow_) (hrhs : (rhs.length : Int) = lp.numRow_) :
    (GetBasisSolvesFormRHS lp basic_variables x rhs transpose = some x ∧
     GetBasisSolvesCheckSolution lp basic_variables x x transpose = some 0) ∧
    (∀ t : Bool, GetBasisSolvesCheckSolution identityLp [-1, -2] [3, 5] [3, 5] t = some 0 ∧
      GetBasisSolvesCheckSolution identityLp [-1, -2] [1, 0] [1, 0] t = some 0 ∧
      GetBasisSolvesCheckSolution identityLp [-1, -2] [0, 1] [0, 1] t = some 0) ∧
    GetBasisSolvesCheckSolution identityLp [0, 1] [2, 7] [2, 7] true = some 0 := by
  refine ⟨identityBasis_spec hlp hid hlen hx hrhs transpose, ?_, by decide!⟩
  intro t
  cases t <;> decide!

/-- C9 on the 2x2 identity matrix with the structural assignment `[0, 1]`, in the
transpose direction. -/
theorem identity_basis_scenario_witness :
    IdentityBasis identityLp [0, 1] ∧
    GetBasisSolvesFormRHS identityLp [0, 1] [2, 7] [0, 0] true = some [2, 7] ∧
    GetBasisSolvesCheckSolution identityLp [0, 1] [2, 7] [2, 7] true = some 0 :=
  ⟨identityLp_structural_identityBasis,
   (identity_basis_scenario identityLp [0, 1] [2, 7] [0, 0] true identityLp_wellFormed
      identityLp_structural_identityBasis (by decide) (by decide) (by decide)).1⟩

/-- C10, counterexample: in binary64 arithmetic the returned `residual_norm` is
NaN, for which `residual_norm >= 0` is false, (a) on the 2x2 identity LP with the
assignment `[-1, -2]`, `rhs = [0, 0]` and a `solution` whose first entry is NaN, in
both directions, and (b) in the transpose direction on finite inputs: with the
column values `2^1023` and `-2^1023` and `solution = [2, 2]` the two products
overflow to `+inf` and `-inf` and their sum at line 50 is NaN. -/
theorem residual_norm_nan :
    GetBasisSolvesCheckSolutionOf ieeeArithmetic identityLpIEEE [-1, -2]
      [Double.finite 0, Double.finite 0] [Double.nan, Double.finite 0] false
        = some Double.nan ∧
    GetBasisSolvesCheckSolutionOf ieeeArithmetic identityLpIEEE [-1, -2]
      [Double.finite 0, Double.finite 0] [Double.nan, Double.finite 0] true
        = some Double.nan ∧
    GetBasisSolvesCheckSolutionOf ieeeArithmetic largeValueLp [0, -2]
      [Double.finite 0, Double.finite 0] [Double.finite 2, Double.finite 2] true
        = some Double.nan ∧
    ¬ Double.le (Double.finite 0) Double.nan :=
  ⟨by decide!, by decide!, by decide!, fun h => h⟩

/-- C10, amended: the residual is never negative. For every LP, assignment, `rhs`
and `solution` on which `GetBasisSolvesCheckSolution` is defined, and for both
values of the transpose flag, the returned `residual_norm` is NaN or satisfies
`residual_norm >= 0` (binary64 arithmetic); in exact arithmetic it is `>= 0`; with
`numRow_ = 0` it is exactly 0. -/
theorem residual_norm_nonneg_or_nan (lp : HighsLpOf Double) (basic_variables : List Int)
    (rhs solution : List Double) (transpose : Bool) :
    (∀ r, GetBasisSolvesCheckSolutionOf ieeeArithmetic lp basic_variables rhs solution
        transpose = some r →
      r = Double.nan ∨ Double.le (Double.finite 0) r) ∧
    (lp.numRow_ = 0 →
      GetBasisSolvesCheckSolutionOf ieeeArithmetic lp basic_variables rhs solution transpose
        = some (Double.finite 0)) ∧
    (∀ (lpq : HighsLp) (rhsq solutionq : List ℚ) (r : ℚ),
      GetBasisSolvesCheckSolution lpq basic_variables rhsq solutionq transpose = some r →
      0 ≤ r) ∧
    (∀ (lpq : HighsLp) (rhsq solutionq : List ℚ), lpq.numRow_ = 0 →
      GetBasisSolvesCheckSolution lpq basic_variables rhsq solutionq transpose = some 0) :=
  ⟨fun _ h => checkSolutionOf_nonNegOrNaN h,
   fun h => checkSolutionOf_numRow_zero basic_variables rhs solution transpose h,
   fun _ _ _ _ h => checkSolution_nonneg h,
   fun _ rhsq solutionq h => checkSolution_numRow_zero basic_variables rhsq solutionq
     transpose h⟩

/-- C10, amended, on the 2x2 identity LP with the assignment `[-1, -2]`: the
residual of `rhs = [3, 5]` against `solution = [1, 2]` is 5, which is `>= 0`; on
the LP without rows the residual is 0; in exact arithmetic the residual 7 of
`exampleLp` is `>= 0`. -/
theorem residual_norm_nonneg_or_nan_witness :
    (GetBasisSolvesCheckSolutionOf ieeeArithmetic identityLpIEEE [-1, -2]
        [Double.finite 3, Double.finite 5] [Double.finite 1, Double.finite 2] false
          = some (Double.finite 5) ∧
      (Double.finite 5 = Double.nan ∨ Double.le (Double.finite 0) (Double.finite 5))) ∧
    (({} : HighsLpOf Double).numRow_ = 0 ∧
      GetBasisSolvesCheckSolutionOf ieeeArithmetic {} [] [] [] true
        = some (Double.finite 0)) ∧
    (GetBasisSolvesCheckSolution exampleLp [0, -1] [20, 11] [5, 7] false = some 7 ∧
      (0 : ℚ) ≤ 7) :=
  ⟨⟨by decide!,
    (residual_norm_nonneg_or_nan identityLpIEEE [-1, -2] [Double.finite 3, Double.finite 5]
      [Double.finite 1, Double.finite 2] false).1 (Double.finite 5) (by decide!)⟩,
   ⟨rfl, (residual_norm_nonneg_or_nan {} [] [] [] true).2.1 rfl⟩,
   ⟨by decide!,
    (residual_norm_nonneg_or_nan identityLpIEEE [0, -1] [] [] false).2.2.1 exampleLp
      [20, 11] [5, 7] 7 (by decide!)⟩⟩

/-- C11: the oracle accepts exactly the true solutions. For a well-formed LP and
assignment, either value of the transpose flag and vectors `rhs` and `x` of length
`numRow_`, `GetBasisSolvesFormRHS` on `x` returns a vector `y`,
`GetBasisSolvesCheckSolution(lp, basic_variables, rhs, x, t)` is 0 if and only if
`rhs` equals `y` component by component, and checking `x` against `y` itself gives
residual 0. -/
theorem residual_zero_iff_rhs_is_image (lp : HighsLp) (basic_variables : List Int)
    (rhs x buffer : List ℚ) (transpose : Bool) (hlp : WellFormed lp)
    (hbv : DecodesInRange lp basic_variables)
    (hlen : (basic_variables.length : Int) = lp.numRow_)
    (hrhs : (rhs.length : Int) = lp.numRow_) (hx : (x.length : Int) = lp.numRow_)
    (hbuf : (buffer.length : Int) = lp.numRow_) :
    ∃ y, GetBasisSolvesFormRHS lp basic_variables x buffer transpose = some y ∧
      (GetBasisSolvesCheckSolution lp basic_variables rhs x transpose = some 0 ↔ rhs = y) ∧
      GetBasisSolvesCheckSolution lp basic_variables y x transpose = some 0 :=
  residual_zero_iff_image hlp hbv hlen hrhs hx hbuf transpose

/-- C11 on `exampleLp`: the image of `[5, 7]` is `[17, 15]`; against it the
residual is 0, against `[20, 11]` it is 7. -/
theorem residual_zero_iff_rhs_is_image_witness :
    GetBasisSolvesFormRHS exampleLp [0, -1] [5, 7] [9, 9] false = some [17, 15] ∧
    GetBasisSolvesCheckSolution exampleLp [0, -1] [17, 15] [5, 7] false = some 0 ∧
    GetBasisSolvesCheckSolution exampleLp [0, -1] [20, 11] [5, 7] false = some 7 ∧
    ∃ y, GetBasisSolvesFormRHS exampleLp [0, -1] [5, 7] [9, 9] false = some y ∧
      (GetBasisSolvesCheckSolution exampleLp [0, -1] [20, 11] [5, 7] false = some 0
        ↔ [20, 11] = y) ∧
      GetBasisSolvesCheckSolution exampleLp [0, -1] y [5, 7] false = some 0 :=
  ⟨by decide!, by decide!, by decide!,
   residual_zero_iff_rhs_is_image exampleLp [0, -1] [20, 11] [5, 7] [9, 9] false
     exampleLp_wellFormed exampleLp_decodesInRange (by decide) (by decide) (by decide)
     (by decide)⟩

/-- C12: the two images are transposes of each other. For a well-formed LP and
assignment and vectors `x`, `y` of length `numRow_`, with `f` the result of
`GetBasisSolvesFormRHS` on `x` with `transpose=false` and `g` its result on `y`
with `transpose=true`, the sum over the rows `i` of `y[i]*f[i]` equals the sum over
the slots `k` of `g[k]*x[k]`; no condition excludes a column that lists a row more
than once or two slots that hold the same variable. -/
theorem forward_transpose_adjoint (lp : HighsLp) (basic_variables : List Int)
    (x y buffer1 buffer2 : List ℚ) (hlp : WellFormed lp)
    (hbv : DecodesInRange lp basic_variables)
    (hlen : (basic_variables.length : Int) = lp.numRow_)
    (hx : (x.length : Int) = lp.numRow_) (hy : (y.length : Int) = lp.numRow_)
    (hb1 : lp.numRow_ ≤ (buffer1.length : Int)) (hb2 : lp.numRow_ ≤ (buffer2.length : Int)) :
    ∃ f g, GetBasisSolvesFormRHS lp basic_variables x buffer1 false = some f ∧
      GetBasisSolvesFormRHS lp basic_variables y buffer2 true = some g ∧
      ∑ i ∈ Finset.range lp.numRow_.toNat, y.getD i 0 * f.getD i 0
        = ∑ k ∈ Finset.range lp.numRow_.toNat, g.getD k 0 * x.getD k 0 := by
  have hbl : basic_variables.length = lp.numRow_.toNat := by omega
  obtain ⟨f, hf, _, hfval⟩ := formRHS_forward hlp hbv hbl
    (show x.length = lp.numRow_.toNat by omega) (show lp.numRow_.toNat ≤ buffer1.length by omega)
  obtain ⟨g, hg, _, hgval⟩ := formRHS_transpose hlp hbv hbl
    (show y.length = lp.numRow_.toNat by omega) (show lp.numRow_.toNat ≤ buffer2.length by omega)
  refine ⟨f, g, hf, hg, ?_⟩
  have hl : ∑ i ∈ Finset.range lp.numRow_.toNat, y.getD i 0 * f.getD i 0
      = ∑ i ∈ Finset.range lp.numRow_.toNat,
          y.getD i 0 * forwardImage lp basic_variables x i :=
    Finset.sum_congr rfl (fun i hi => by rw [hfval i (Finset.mem_range.mp hi)])
  have hr : ∑ k ∈ Finset.range lp.numRow_.toNat, g.getD k 0 * x.getD k 0
      = ∑ k ∈ Finset.range lp.numRow_.toNat,
          transposeImage lp basic_variables y k * x.getD k 0 :=
    Finset.sum_congr rfl (fun k hk => by rw [hgval k (Finset.mem_range.mp hk)])
  rw [hl, hr]
  exact sum_mul_forwardImage hlp hbv hbl x y

/-- C12 on `repeatedEntryLp`, whose column lists row 0 twice, with the assignment
`[0, 0]`, whose two slots hold the same variable: for `x = [1, 2]` and
`y = [3, 4]` the images are `f = [9, 15]` and `g = [29, 29]`, and both pairings
are 87. -/
theorem forward_transpose_adjoint_witness :
    GetBasisSolvesFormRHS repeatedEntryLp [0, 0] [1, 2] [0, 0] false = some [9, 15] ∧
    GetBasisSolvesFormRHS repeatedEntryLp [0, 0] [3, 4] [0, 0] true = some [29, 29] ∧
    ∃ f g, GetBasisSolvesFormRHS repeatedEntryLp [0, 0] [1, 2] [0, 0] false = some f ∧
      GetBasisSolvesFormRHS repeatedEntryLp [0, 0] [3, 4] [0, 0] true = some g ∧
      ∑ i ∈ Finset.range repeatedEntryLp.numRow_.toNat, [(3 : ℚ), 4].getD i 0 * f.getD i 0
        = ∑ k ∈ Finset.range repeatedEntryLp.numRow_.toNat,
            g.getD k 0 * [(1 : ℚ), 2].getD k 0 :=
  ⟨by decide!, by decide!,
   forward_transpose_adjoint repeatedEntryLp [0, 0] [1, 2] [3, 4] [0, 0] [0, 0]
     repeatedEntryLp_wellFormed repeatedEntryLp_decodesInRange (by decide) (by decide)
     (by decide) (by decide) (by decide)⟩

/-- C13: the output buffer is zero-initialised by the mapper itself. For either
value of the transpose flag, two calls of `GetBasisSolvesFormRHS` with the same
`lp`, `basic_variables` and `solution` on buffers `rhs` with different contents:
whenever the first call returns, so does the second, the two calls leave identical
`rhs[0..numRow_)`, and `lp`, `basic_variables` and `solution` are unchanged; for a
well-formed LP and assignment both calls do return. -/
theorem rhs_independent_of_initial_content (lp : HighsLp) (basic_variables : List Int)
    (solution rhs1 rhs2 : List ℚ) (transpose : Bool) (hlen : rhs1.length = rhs2.length) :
    (∀ m1, callGetBasisSolvesFormRHS ⟨lp, basic_variables, solution, rhs1⟩ transpose
        = some m1 →
      ∃ m2, callGetBasisSolvesFormRHS ⟨lp, basic_variables, solution, rhs2⟩ transpose
          = some m2 ∧
        m1.rhs.take lp.numRow_.toNat = m2.rhs.take lp.numRow_.toNat ∧
        (m1.lp = lp ∧ m1.basic_variables = basic_variables ∧ m1.solution = solution) ∧
        (m2.lp = lp ∧ m2.basic_variables = basic_variables ∧ m2.solution = solution)) ∧
    (WellFormed lp → DecodesInRange lp basic_variables →
      (basic_variables.length : Int) = lp.numRow_ → (solution.length : Int) = lp.numRow_ →
      lp.numRow_ ≤ (rhs1.length : Int) →
      ∃ m1 m2,
        callGetBasisSolvesFormRHS ⟨lp, basic_variables, solution, rhs1⟩ transpose = some m1 ∧
        callGetBasisSolvesFormRHS ⟨lp, basic_variables, solution, rhs2⟩ transpose = some m2 ∧
        m1.rhs.take lp.numRow_.toNat = m2.rhs.take lp.numRow_.toNat) := by
  have part1 : ∀ m1, callGetBasisSolvesFormRHS ⟨lp, basic_variables, solution, rhs1⟩ transpose
        = some m1 →
      ∃ m2, callGetBasisSolvesFormRHS ⟨lp, basic_variables, solution, rhs2⟩ transpose
          = some m2 ∧
        m1.rhs.take lp.numRow_.toNat = m2.rhs.take lp.numRow_.toNat ∧
        (m1.lp = lp ∧ m1.basic_variables = basic_variables ∧ m1.solution = solution) ∧
        (m2.lp = lp ∧ m2.basic_variables = basic_variables ∧ m2.solution = solution) := by
    intro m1 h1
    unfold callGetBasisSolvesFormRHS at h1 ⊢
    simp only [Option.map_eq_some'] at h1
    obtain ⟨y1, hy1, hm1⟩ := h1
    obtain ⟨y2, hy2, hagree⟩ := formRHS_sim lp basic_variables solution transpose hlen hy1
    refine ⟨⟨lp, basic_variables, solution, y2⟩, ?_, ?_, ?_, ⟨rfl, rfl, rfl⟩⟩
    · simp only [hy2, Option.map_some']
    · rw [← hm1]
      exact hagree.take_eq
    · rw [← hm1]
      exact ⟨rfl, rfl, rfl⟩
  refine ⟨part1, ?_⟩
  intro hlp hbv hbl hsol hr
  have hbl' : basic_variables.length = lp.numRow_.toNat := by omega
  have hx' : solution.length = lp.numRow_.toNat := by omega
  have hr' : lp.numRow_.toNat ≤ rhs1.length := by omega
  have hret : ∃ y, GetBasisSolvesFormRHS lp basic_variables solution rhs1 transpose = some y := by
    cases transpose with
    | false =>
      obtain ⟨y, hy, _⟩ := formRHS_forward hlp hbv hbl' hx' hr'
      exact ⟨y, hy⟩
    | true =>
      obtain ⟨y, hy, _⟩ := formRHS_transpose hlp hbv hbl' hx' hr'
      exact ⟨y, hy⟩
  obtain ⟨y, hy⟩ := hret
  have hcall : callGetBasisSolvesFormRHS ⟨lp, basic_variables, solution, rhs1⟩ transpose
      = some ⟨lp, basic_variables, solution, y⟩ := by
    unfold callGetBasisSolvesFormRHS
    simp only [hy, Option.map_some']
  obtain ⟨m2, hm2, htake, _⟩ := part1 _ hcall
  exact ⟨_, m2, hcall, hm2, htake⟩

/-- C13 on `exampleLp` with the buffers `[9, 9]` and `[4, -1]`: both calls leave
`[17, 15]`. -/
theorem rhs_independent_of_initial_content_witness :
    GetBasisSolvesFormRHS exampleLp [0, -1] [5, 7] [9, 9] false = some [17, 15] ∧
    GetBasisSolvesFormRHS exampleLp [0, -1] [5, 7] [4, -1] false = some [17, 15] ∧
    (∃ m2, callGetBasisSolvesFormRHS ⟨exampleLp, [0, -1], [5, 7], [4, -1]⟩ false = some m2 ∧
      [(17 : ℚ), 15].take exampleLp.numRow_.toNat = m2.rhs.take exampleLp.numRow_.toNat ∧
      m2.lp = exampleLp ∧ m2.basic_variables = [0, -1] ∧ m2.solution = [5, 7]) ∧
    ∃ m1 m2,
      callGetBasisSolvesFormRHS ⟨exampleLp, [0, -1], [5, 7], [9, 9]⟩ false = some m1 ∧
      callGetBasisSolvesFormRHS ⟨exampleLp, [0, -1], [5, 7], [4, -1]⟩ false = some m2 ∧
      m1.rhs.take exampleLp.numRow_.toNat = m2.rhs.take exampleLp.numRow_.toNat :=
  ⟨by decide!, by decide!,
   (((rhs_independent_of_initial_content exampleLp [0, -1] [5, 7] [9, 9] [4, -1] false rfl).1
      ⟨exampleLp, [0, -1], [5, 7], [17, 15]⟩
      (by
        unfold callGetBasisSolvesFormRHS
        rw [show GetBasisSolvesFormRHS exampleLp [0, -1] [5, 7] [9, 9] false
          = some [17, 15] from by decide!]
        rfl)).imp fun _ hm => ⟨hm.1, hm.2.1, hm.2.2.2⟩),
   (rhs_independent_of_initial_content exampleLp [0, -1] [5, 7] [9, 9] [4, -1] false rfl).2
     exampleLp_wellFormed exampleLp_decodesInRange (by decide) (by decide) (by decide)⟩

/-- C14: all indexing is in bounds under the data-model invariants. If the LP is
well formed (`Astart_` has `numCol_+1` non-decreasing entries starting at or
after 0 and ending within `Aindex_` and `Avalue_`, every `Aindex_` entry is in
`[0, numRow_)`), `basic_variables`, `rhs` and `solution` have length `numRow_` and
every raw entry `v` satisfies `-numRow_ <= v < numCol_`, then
`GetBasisSolvesFormRHS` and `GetBasisSolvesCheckSolution` return in both
directions: no array access leaves its bounds and both functions terminate. -/
theorem indexing_in_bounds (lp : HighsLp) (basic_variables : List Int)
    (rhs solution : List ℚ) (transpose : Bool) (hlp : WellFormed lp)
    (hrange : ∀ v ∈ basic_variables, -lp.numRow_ ≤ v ∧ v < lp.numCol_)
    (hlen : (basic_variables.length : Int) = lp.numRow_)
    (hrhs : (rhs.length : Int) = lp.numRow_)
    (hsol : (solution.length : Int) = lp.numRow_) :
    ∃ y r, GetBasisSolvesFormRHS lp basic_variables solution rhs transpose = some y ∧
      y.length = rhs.length ∧
      GetBasisSolvesCheckSolution lp basic_variables rhs solution transpose = some r := by
  have hbv := decodesInRange_of_bounds hlp hrange
  have hbl : basic_variables.length = lp.numRow_.toNat := by omega
  have hx : solution.length = lp.numRow_.toNat := by omega
  have hr : lp.numRow_.toNat ≤ rhs.length := by omega
  cases transpose with
  | false =>
    obtain ⟨y, hy, hylen, _⟩ := formRHS_forward hlp hbv hbl hx hr
    exact ⟨y, _, hy, hylen, checkSolution_forward hlp hbv hbl hx hr (by omega)⟩
  | true =>
    obtain ⟨y, hy, hylen, _⟩ := formRHS_transpose hlp hbv hbl hx hr
    exact ⟨y, _, hy, hylen, checkSolution_transpose hlp hbv hbl hx hr⟩

/-- C14 on `exampleLp` with the assignment `[Structural 0, Logical 0]`, in the
transpose direction. -/
theorem indexing_in_bounds_witness :
    (∀ v ∈ [(0 : Int), -1], -exampleLp.numRow_ ≤ v ∧ v < exampleLp.numCol_) ∧
    ∃ y r, GetBasisSolvesFormRHS exampleLp [0, -1] [5, 7] [20, 11] true = some y ∧
      y.length = [(20 : ℚ), 11].length ∧
      GetBasisSolvesCheckSolution exampleLp [0, -1] [20, 11] [5, 7] true = some r :=
  ⟨by decide,
   indexing_in_bounds exampleLp [0, -1] [20, 11] [5, 7] true exampleLp_wellFormed
     (by decide) (by decide) (by decide) (by decide)⟩


end HiGHS
